import Mathlib

/-!
Verification development for the margin diploid phasing engine.

The definitions below are a shallow embedding of the C sources
(src/impl/bubbleGraph.c, src/impl/genomeFragment.c,
src/impl/localPhasingCorrectness.c).  Doubles are modelled by rationals except
where the code computes genuine logarithms and exponentials, which are
modelled by real numbers; machine integers are modelled by Nat/Int.
-/

namespace Margin

/-! ## Run-length encoded strings (external RleString collaborator) -/

/-- Run-length encoded string: a list of units, each a character paired with its
repeat count.  Models the external RleString value with its rleString and
repeatCounts arrays; the RLE length is the list length. -/
abbrev RleString := List (Char × ℕ)

/-- Expansion of an RLE string into a plain character string.  Models the
external rleString_expand. -/
def rleExpand (r : RleString) : List Char :=
  (r.map (fun u => List.replicate u.2 u.1)).flatten

/-- Helper for rleConstruct: prepend a run of n copies of c onto an RLE string,
merging with the head run when the character matches. -/
def consRun (c : Char) (n : ℕ) : RleString → RleString
  | [] => [(c, n)]
  | (d, m) :: t => if c = d then (d, n + m) :: t else (c, n) :: (d, m) :: t

/-- Modelled from the spec: the external rleString_construct groups a plain
string into maximal runs of equal characters with their repeat counts. -/
def rleConstruct : List Char → RleString
  | [] => []
  | c :: cs => consRun c 1 (rleConstruct cs)

/-- Modelled from the spec: the external rleString_construct_no_rle stores each
character as its own unit with repeat count 1. -/
def rleConstructNoRle (s : List Char) : RleString := s.map (fun c => (c, 1))

/-- An RLE string is canonical when every repeat count is positive and adjacent
units hold distinct characters.  rleString_construct always produces canonical
output, and substrings of canonical RLE strings are canonical. -/
def rleCanonical (r : RleString) : Prop :=
  (∀ u ∈ r, 0 < u.2) ∧ List.Chain' (fun a b => a.1 ≠ b.1) r

/-- Encoding used when a builder stores an expanded allele string as an
RleString: rleString_construct when run-length encoding is on,
rleString_construct_no_rle otherwise. -/
def rleEncode (useRle : Bool) (s : List Char) : RleString :=
  if useRle then rleConstruct s else rleConstructNoRle s

/-- Mode-dependent canonicity: with run-length encoding the string is
canonical, without it every repeat count is 1 (as rleString_construct_no_rle
produces). -/
def rleCanonicalFor (useRle : Bool) (r : RleString) : Prop :=
  if useRle then rleCanonical r else ∀ u ∈ r, u.2 = 1

/-! ## Bubble emission (claim C1) -/

/-- A bubble as far as the allele invariant is concerned: the reference allele,
the allele array and its recorded size. -/
structure Bubble where
  refAllele : RleString
  alleles : List RleString
  alleleNo : ℕ
deriving DecidableEq

/-- Bubble emission step of bubbleGraph_constructFromPoaAndVCF
(bubbleGraph.c:976-1022).  The candidate allele strings are arbitrary expanded
strings (either from getCandidateAllelesFromReadSubstrings or from the
getCandidateConsensusSubstrings retry loop); the expanded reference substring
is appended when it is not already present, and a bubble is emitted only when
more than one allele string remains. -/
def bubble_fromCandidateAlleles (useRle : Bool) (alleleStrs : List (List Char))
    (existingRefSubstring : RleString) : Option Bubble :=
  let expandedRef := rleExpand existingRefSubstring
  let alleles' := if expandedRef ∈ alleleStrs then alleleStrs else alleleStrs ++ [expandedRef]
  if 1 < alleles'.length then
    some { refAllele := existingRefSubstring,
           alleles := alleles'.map (rleEncode useRle),
           alleleNo := alleles'.length }
  else none

/-- Bubble emission step of
bubbleGraph_constructFromVCFAndBamChunkReadVcfEntrySubstrings
(bubbleGraph.c:1346-1393).  vcfEntry alleleSubstrings come from the external
VCF parser with the reference allele first; entries whose read-substring list
is empty are skipped, otherwise the bubble's refAllele re-encodes the expanded
reference allele string and the alleles are copies of the substring list. -/
def bubble_fromVcfAlleleSubstrings (useRle : Bool) (alleleSubstrings : List RleString)
    (readSubstringNo : ℕ) : Option Bubble :=
  if readSubstringNo = 0 then none
  else
    some { refAllele := rleEncode useRle (rleExpand (alleleSubstrings.getD 0 [])),
           alleles := alleleSubstrings,
           alleleNo := alleleSubstrings.length }

/-! ## Anchor expansion (claim C6) -/

/-- Expansion of a boolean flag array (bubbleGraph.c expand, lines 670-687):
position q is set in the output exactly when some set position i satisfies
i - expansion ≤ q < i + expansion (note the exclusive right end of the C
loop `for (j = i - expansion; j < i + expansion; j++)`). -/
def expandFlags (b : List Bool) (expansion : ℤ) : List Bool :=
  (List.range b.length).map fun (q : ℕ) =>
    (List.range b.length).any fun (i : ℕ) =>
      b.getD i false && decide ((i : ℤ) - expansion ≤ (q : ℤ)) &&
        decide ((q : ℤ) < (i : ℤ) + expansion)

/-- Anchor computation of getFilteredAnchorPositions (bubbleGraph.c:744-751):
anchors are the complement of the expanded candidate-variant position flags. -/
def getFilteredAnchorPositions (candidateVariantPositions : List Bool)
    (columnAnchorTrim : ℤ) : List Bool :=
  (expandFlags candidateVariantPositions columnAnchorTrim).map (fun x => !x)

/-! ## Read substring extraction and filtering (claim C10) -/

/-- A POA base observation: contributing read number, offset in the read and
alignment weight (PoaBaseObservation). -/
structure PoaObservation where
  readNo : ℕ
  offset : ℤ
  weight : ℚ
deriving DecidableEq

/-- The part of a BamChunkRead needed here: optional per-base phred
qualities. -/
structure BamChunkRead where
  qualities : Option (List ℕ)
deriving DecidableEq

/-- A read substring record (BamChunkReadSubstring): source read number, start
and length in the read, and the mean-quality summary qualValue. -/
structure ReadSubstringRec where
  readNo : ℕ
  start : ℤ
  len : ℤ
  qualValue : ℚ
deriving DecidableEq

/-- bamChunkRead_getSubstring (bubbleGraph.c:424-448): builds a substring
record whose qualValue is the mean of the phred qualities over the substring,
or -1 when the read has no qualities. -/
def bamChunkRead_getSubstring (reads : List BamChunkRead) (readNo : ℕ)
    (start len : ℤ) : ReadSubstringRec :=
  let q : ℚ :=
    match (reads.getD readNo ⟨none⟩).qualities with
    | some qs =>
      (((List.range len.toNat).map
          (fun i => ((qs.getD (start.toNat + i) 0 : ℤ) : ℚ))).sum) / (len : ℚ)
    | none => -1
  ⟨readNo, start, len, q⟩

/-- skipDupes (bubbleGraph.c:484-493): advance past further observations of the
same read (the observation list is presorted by read number ascending then
weight descending, so only the first, highest-weight observation is used). -/
def skipDupes (obs : List PoaObservation) (readNo : ℕ) : List PoaObservation :=
  obs.dropWhile (fun o => o.readNo == readNo)

/-- Two-pointer walk of getReadSubstrings2 over the from-node and to-node
observation lists (bubbleGraph.c:571-594): matching reads yield the
[fromOffset, toOffset) slice when it is non-empty.  The fuel argument only
bounds the number of loop iterations; every iteration of the C loop consumes
at least one observation, so any fuel of at least the total observation count
reproduces the loop exactly. -/
def getReadSubstringsWalkAux (reads : List BamChunkRead) :
    ℕ → List PoaObservation → List PoaObservation → List ReadSubstringRec
  | 0, _, _ => []
  | _ + 1, [], _ => []
  | _ + 1, _ :: _, [] => []
  | fuel + 1, oF :: fs, oT :: ts =>
    if oF.readNo = oT.readNo then
      (if 0 < oT.offset - oF.offset then
        [bamChunkRead_getSubstring reads oF.readNo oF.offset (oT.offset - oF.offset)]
      else []) ++
        getReadSubstringsWalkAux reads fuel (skipDupes fs oF.readNo) (skipDupes ts oT.readNo)
    else if oF.readNo < oT.readNo then
      getReadSubstringsWalkAux reads fuel (skipDupes fs oF.readNo) (oT :: ts)
    else
      getReadSubstringsWalkAux reads fuel (oF :: fs) (skipDupes ts oT.readNo)

/-- getReadSubstrings2 two-pointer case with sufficient fuel for the whole
walk. -/
def getReadSubstringsWalk (reads : List BamChunkRead)
    (fromObs toObs : List PoaObservation) : List ReadSubstringRec :=
  getReadSubstringsWalkAux reads (fromObs.length + toObs.length) fromObs toObs

/-- Comparator of readSubstrings_cmpByQual as a relation: descending
qualValue order. -/
def qualGE (a b : ReadSubstringRec) : Prop := b.qualValue ≤ a.qualValue

instance : DecidableRel qualGE := fun _ _ => inferInstanceAs (Decidable (_ ≤ _))

instance : IsTotal ReadSubstringRec qualGE :=
  ⟨fun a b => le_total b.qualValue a.qualValue⟩

instance : IsTrans ReadSubstringRec qualGE :=
  ⟨fun _ _ _ h1 h2 => le_trans h2 h1⟩

/-- Tail-trimming loop of filterReadSubstrings (bubbleGraph.c:509-518): while
more substrings remain than the coverage bound and the worst remaining
qualValue is below the minimum (and known, i.e. not -1), drop it.  Each
iteration drops one element, so fuel at least the list length reproduces the
loop exactly. -/
def filterReadSubstringsLoop (cov : ℕ) (minQ : ℚ) :
    ℕ → List ReadSubstringRec → List ReadSubstringRec
  | 0, l => l
  | fuel + 1, l =>
    if cov < l.length then
      match l.getLast? with
      | some rs =>
        if rs.qualValue < minQ ∧ rs.qualValue ≠ -1 then
          filterReadSubstringsLoop cov minQ fuel l.dropLast
        else l
      | none => l
    else l

/-- filterReadSubstrings (bubbleGraph.c:505-521): sort by descending qualValue,
then trim the tail. -/
def filterReadSubstrings (cov : ℕ) (minQ : ℚ) (l : List ReadSubstringRec) :
    List ReadSubstringRec :=
  filterReadSubstringsLoop cov minQ l.length (List.insertionSort qualGE l)

/-- The read array of a bubble built by bubbleGraph_constructFromPoaAndVCF
(bubbleGraph.c:1008-1013): the filtered substring list is transferred with
stList_pop, i.e. reversed. -/
def bubbleReadsFromPoa (reads : List BamChunkRead)
    (fromObs toObs : List PoaObservation) (cov : ℕ) (minQ : ℚ) :
    List ReadSubstringRec :=
  (filterReadSubstrings cov minQ (getReadSubstringsWalk reads fromObs toObs)).reverse

/-! ## Filtered-read rescuer (claim C8) -/

/-- Per-bubble data seen by bubbleGraph_partitionFilteredReads: the two chosen
haplotype allele indices of the primary bubble and, for each read substring
attached to the local rescue bubble, the read identity and its two forward
log-probabilities (alleleReadSupports rows 0 and 1, i.e. against the hap1 and
hap2 alleles; the probabilities themselves come from the external
computeForwardProbability).  The C code skips a bubble when the two haplotype
allele pointers coincide, which happens exactly when the indices coincide. -/
structure RescueBubbleData where
  hap1AlleleNo : ℕ
  hap2AlleleNo : ℕ
  reads : List (ℕ × ℚ × ℚ)

/-- Inner accumulation step of bubbleGraph_partitionFilteredReads
(bubbleGraph.c:1634-1643): for one read substring, add s1 - logAdd(s1, s2) to
the read's hap1 accumulator and s2 - logAdd(s2, s1) to its hap2
accumulator. -/
def rescueReadStep (logAdd : ℚ → ℚ → ℚ) (acc2 : (ℕ → ℚ) × (ℕ → ℚ))
    (rs : ℕ × ℚ × ℚ) : (ℕ → ℚ) × (ℕ → ℚ) :=
  (fun r => if r = rs.1 then acc2.1 r + (rs.2.1 - logAdd rs.2.1 rs.2.2) else acc2.1 r,
   fun r => if r = rs.1 then acc2.2 r + (rs.2.2 - logAdd rs.2.2 rs.2.1) else acc2.2 r)

/-- Per-bubble step of bubbleGraph_partitionFilteredReads: homozygous primary
bubbles are skipped (`if (hap1 == hap2) continue`). -/
def rescueBubbleStep (logAdd : ℚ → ℚ → ℚ) (acc : (ℕ → ℚ) × (ℕ → ℚ))
    (b : RescueBubbleData) : (ℕ → ℚ) × (ℕ → ℚ) :=
  if b.hap1AlleleNo = b.hap2AlleleNo then acc
  else b.reads.foldl (rescueReadStep logAdd) acc

/-- Accumulation loop of bubbleGraph_partitionFilteredReads
(bubbleGraph.c:1494-1655): both accumulators of every read start at 0.  The
external stMath_logAddExact is abstracted as the logAdd parameter. -/
def rescueAccumulate (logAdd : ℚ → ℚ → ℚ) (bubbles : List RescueBubbleData) :
    (ℕ → ℚ) × (ℕ → ℚ) :=
  bubbles.foldl (rescueBubbleStep logAdd) (fun _ => 0, fun _ => 0)

/-- Final classification of bubbleGraph_partitionFilteredReads
(bubbleGraph.c:1687-1705): a read goes to the hap1 set when its hap1
accumulator strictly exceeds its hap2 accumulator, to the hap2 set in the
symmetric case, and to neither set on a tie. -/
def bubbleGraph_partitionFilteredReads (allReads : List ℕ)
    (bubbles : List RescueBubbleData) (logAdd : ℚ → ℚ → ℚ) : List ℕ × List ℕ :=
  let acc := rescueAccumulate logAdd bubbles
  (allReads.filter (fun r => acc.2 r < acc.1 r),
   allReads.filter (fun r => acc.1 r < acc.2 r))

/-- The claim's accumulator for hap1, written as the spec states it: the sum
over all heterozygous primary bubbles of s1 - logsumexp(s1, s2) over the
read's substrings there. -/
def rescueScore1 (logAdd : ℚ → ℚ → ℚ) (bubbles : List RescueBubbleData) (r : ℕ) : ℚ :=
  (bubbles.map (fun b =>
    if b.hap1AlleleNo = b.hap2AlleleNo then 0
    else (b.reads.map (fun rs =>
      if rs.1 = r then rs.2.1 - logAdd rs.2.1 rs.2.2 else 0)).sum)).sum

/-- The claim's accumulator for hap2. -/
def rescueScore2 (logAdd : ℚ → ℚ → ℚ) (bubbles : List RescueBubbleData) (r : ℕ) : ℚ :=
  (bubbles.map (fun b =>
    if b.hap1AlleleNo = b.hap2AlleleNo then 0
    else (b.reads.map (fun rs =>
      if rs.1 = r then rs.2.2 - logAdd rs.2.2 rs.2.1 else 0)).sum)).sum

/-! ## Phasing driver read partition (claim C2)

Profile sequences are identified by natural numbers.  The initial split of the
surviving (non-coverage-filtered) profile sequences into the two read sets is
produced by the external HMM machinery (stGenomeFragment_construct over the
traceback path); it is passed in as a pair of sets constrained, per the spec,
to partition the surviving reads. -/

/-- getLogProbOfReadGivenHaplotype (genomeFragment.c:51-72): expected match
score of a profile sequence against a haplotype string, summing substitution
probability times profile probability over the overlapping sites.  The
external substitution model and profile-byte-to-probability conversion
(getProb) are parameters. -/
def getLogProbOfReadGivenHaplotype (alphabetSize : ℕ) (subModel : ℕ → ℕ → ℚ)
    (hap : List ℕ) (start len : ℤ) (pRefStart : ℤ) (pLen : ℕ)
    (profileProb : ℕ → ℕ → ℚ) : ℚ :=
  ((List.range pLen).map (fun (i : ℕ) =>
    let j : ℤ := (i : ℤ) + pRefStart - start
    if 0 ≤ j ∧ j < len then
      ((List.range alphabetSize).map
        (fun (k : ℕ) => subModel (hap.getD j.toNat 0) k * profileProb i k)).sum
    else 0)).sum

/-- One pass of stGenomeFragment_refineGenomeFragment
(genomeFragment.c:140-181): the subset of each side scoring strictly higher
under the other haplotype is computed (via
findReadsThatWereMoreProbablyGeneratedByTheOtherHaplotype), and if either is
non-empty the memberships are swapped.  The haplotype strings are recomputed
from the partition by the external fillInPredictedGenome, so the per-read
scores are a function of the current partition. -/
def refineStep (score : Finset ℕ × Finset ℕ → ℕ → ℚ × ℚ)
    (p : Finset ℕ × Finset ℕ) : Finset ℕ × Finset ℕ :=
  let reads1To2 := p.1.filter (fun r => (score p r).1 < (score p r).2)
  let reads2To1 := p.2.filter (fun r => (score p r).2 < (score p r).1)
  if reads1To2 = ∅ ∧ reads2To1 = ∅ then p
  else ((p.1 \ reads1To2) ∪ reads2To1, (p.2 \ reads2To1) ∪ reads1To2)

/-- Iterative refinement bounded by roundsOfIterativeRefinement. -/
def refineGenomeFragment (score : Finset ℕ × Finset ℕ → ℕ → ℚ × ℚ) :
    ℕ → Finset ℕ × Finset ℕ → Finset ℕ × Finset ℕ
  | 0, p => p
  | n + 1, p => refineGenomeFragment score n (refineStep score p)

/-- Rescue loop of bubbleGraph_phaseBubbleGraph (bubbleGraph.c:2531-2539):
each coverage-filtered profile sequence is scored against the two haplotype
strings with getLogProbOfReadGivenHaplotype and inserted into reads2 when the
hap1 score is strictly smaller, into reads1 otherwise. -/
def rescueDiscarded (rscore : ℕ → ℚ × ℚ) (discarded : List ℕ)
    (p : Finset ℕ × Finset ℕ) : Finset ℕ × Finset ℕ :=
  discarded.foldl
    (fun q r => if (rscore r).1 < (rscore r).2 then (q.1, insert r q.2)
                else (insert r q.1, q.2)) p

/-- bubbleGraph_phaseBubbleGraph (bubbleGraph.c:2433-2577) after the HMM
stage: the initial partition (hmmReads1, hmmReads2) of the surviving profile
sequences comes from the external forward-backward/traceback machinery, the
genome fragment is refined for the configured number of rounds, and the
discarded (coverage-filtered) profile sequences are rescued into one of the
two sets. -/
def bubbleGraph_phaseBubbleGraph (hmmReads1 hmmReads2 : Finset ℕ)
    (rounds : ℕ) (score : Finset ℕ × Finset ℕ → ℕ → ℚ × ℚ)
    (discarded : List ℕ) (rscore : ℕ → ℚ × ℚ) : Finset ℕ × Finset ℕ :=
  rescueDiscarded rscore discarded
    (refineGenomeFragment score rounds (hmmReads1, hmmReads2))

/-! ## Consensus stitching (claim C3) -/

/-- rleString_copySubstring: the RLE units in positions
[start, start + len). -/
def rleSlice (r : RleString) (start len : ℕ) : RleString := (r.drop start).take len

/-- First RLE character of a string (rleString[0]; the C asserts the string
non-empty before reading it). -/
def rleHeadChar (r : RleString) : Char := (r.getD 0 ('-', 0)).1

/-- Last RLE character of a string (rleString[length - 1]). -/
def rleLastChar (r : RleString) : Char := ((r.getLast?).getD ('-', 0)).1

/-- A bubble as seen by the consensus stitcher: reference start, reference
allele, and the allele array indexed by the consensus path. -/
structure ConsensusBubble where
  refStart : ℕ
  refAllele : RleString
  alleles : List RleString
deriving DecidableEq

/-- The allele chosen at a bubble by the consensus path
(b->alleles[consensusPath[i]]). -/
def consensusChosen (b : ConsensusBubble) (pathIdx : ℕ) : RleString :=
  b.alleles.getD pathIdx []

/-- Reference-index advance of bubbleGraph_getConsensusString: the
run-length-collapse adjustment (the conditional k++ when the first emitted
character equals the previously emitted one) followed by the while-loop
`while (k < bound) k++`, which clamps k up to the boundary. -/
def consensusAdvance (useRle : Bool) (firstChar prevBase : Char)
    (k bound : ℕ) : ℕ :=
  max (if useRle && (firstChar == prevBase) then k + 1 else k) bound

/-- Main loop of bubbleGraph_getConsensusString (bubbleGraph.c:62-183),
restricted to the emitted strings and the reference index k (the
poaToConsensusMap bookkeeping j is a further output that does not influence
the returned string).  Before each bubble the pending reference substring is
emitted expanded; then the chosen allele is emitted expanded; when the chosen
allele differs from the reference allele only the indices advance
(k += refAllele->length); after the last bubble the remaining reference
suffix is emitted. -/
def getConsensusLoop (useRle : Bool) (refString : RleString) :
    List (ConsensusBubble × ℕ) → ℕ → Char → List Char
  | [], k, _ =>
    if k < refString.length then rleExpand (rleSlice refString k (refString.length - k))
    else []
  | (b, p) :: rest, k, prevBase =>
    let refSub := rleSlice refString k (b.refStart - k)
    let pre := if k < b.refStart then rleExpand refSub else []
    let k1 := if k < b.refStart then
        consensusAdvance useRle (rleHeadChar refSub) prevBase k b.refStart
      else k
    let prev1 := if k < b.refStart then rleLastChar refSub else prevBase
    let chosen := consensusChosen b p
    let k2 := if chosen = b.refAllele then
        consensusAdvance useRle (rleHeadChar chosen) prev1 k1
          (b.refStart + b.refAllele.length)
      else k1 + b.refAllele.length
    pre ++ rleExpand chosen ++ getConsensusLoop useRle refString rest k2 (rleLastChar chosen)

/-- bubbleGraph_getConsensusString: concatenate the emitted pieces and
re-run-length-encode them (or store them plain when RLE is off). -/
def bubbleGraph_getConsensusString (useRle : Bool) (refString : RleString)
    (bubbles : List ConsensusBubble) (consensusPath : List ℕ) : RleString :=
  rleEncode useRle (getConsensusLoop useRle refString (bubbles.zip consensusPath) 0 '-')

/-! ## Candidate consensus substrings (claim C7) -/

/-- A POA node as consumed by the candidate enumerator: current base and
repeat count, per-symbol base weights (indexed by alphabet symbol index),
per-repeat-count weights, candidate insertions (insert string and weight) and
candidate deletions (length and weight). -/
structure PoaNodeRec where
  base : Char
  repeatCount : ℕ
  baseWeights : ℕ → ℚ
  repeatCountWeights : ℕ → ℚ
  inserts : List (RleString × ℚ)
  deletes : List (ℕ × ℚ)

/-- Placeholder node for out-of-range accesses (never reached on the C side,
where node indices are always in range). -/
def defaultPoaNode : PoaNodeRec := ⟨'-', 0, fun _ => 0, fun _ => 0, [], []⟩

/-- getNextCandidateBase (bubbleGraph.c:207-219) as the list of bases it
yields: every alphabet symbol whose weight exceeds the candidate weight, plus
always the node's (uppercased) reference base. -/
def candidateBases (alphabet : List Char) (node : PoaNodeRec) (cw : ℚ) :
    List Char :=
  (List.range alphabet.length).filterMap (fun (i : ℕ) =>
    let base := alphabet.getD i ' '
    if cw < node.baseWeights i ∨ Char.toUpper node.base = base then some base
    else none)

/-- getNextCandidateRepeatCount (bubbleGraph.c:221-234) as driven by the
caller's iterator, which starts at l = 1 (bubbleGraph.c:362): repeat counts
in [1, maxRepeatCount) whose weight exceeds twice the candidate weight, plus
the node's reference repeat count whenever it lies in that range. -/
def candidateRepeatCounts (maxRC : ℕ) (node : PoaNodeRec) (cw : ℚ) : List ℕ :=
  (List.range' 1 (maxRC - 1)).filter
    (fun rc => 2 * cw < node.repeatCountWeights rc ∨ node.repeatCount = rc)

/-- getNextCandidateInsert (bubbleGraph.c:266-277): inserts with weight above
the candidate weight. -/
def candidateInserts (node : PoaNodeRec) (cw : ℚ) : List RleString :=
  (node.inserts.filter (fun ins => cw < ins.2)).map (fun ins => ins.1)

/-- getNextCandidateDelete (bubbleGraph.c:287-298) as consumed by the
`while (... > 0)` loop in getCandidateConsensusSubstrings: admitted delete
lengths in order, stopping at the first non-positive one. -/
def candidateDeletes (node : PoaNodeRec) (cw : ℚ) : List ℕ :=
  (((node.deletes.filter (fun dl => cw < dl.2)).map (fun dl => dl.1)).takeWhile
    (fun l => 0 < l))

/-- Extension step of getCandidateConsensusSubstrings at one node
(bubbleGraph.c:357-410): for every candidate base and repeat count, append the
no-edit extensions of all suffixes, then the insert extensions, then the
delete extensions (the latter deduplicated against everything accumulated so
far, as containsString does). -/
def extendWithNode (alphabet : List Char) (maxRC : ℕ) (node : PoaNodeRec)
    (cw : ℚ) (suffixes : List (List Char)) : List (List Char) :=
  (candidateBases alphabet node cw).foldl
    (fun acc base =>
      (candidateRepeatCounts maxRC node cw).foldl
        (fun acc2 rc =>
          let bases := List.replicate rc base
          let acc3 := acc2 ++ suffixes.map (fun suf => bases ++ suf)
          let acc4 := (candidateInserts node cw).foldl
            (fun a ins => a ++ suffixes.map (fun suf => bases ++ rleExpand ins ++ suf))
            acc3
          (candidateDeletes node cw).foldl
            (fun a dl =>
              suffixes.foldl
                (fun a2 suf =>
                  let s := bases ++ suf.drop dl
                  if s ∈ a2 then a2 else a2 ++ [s])
                a)
            acc4)
        acc)
    []

/-- One level of getCandidateConsensusSubstrings with the suffix set already
computed: build the extensions and signal "too many combinations" (none) when
the cap is exceeded. -/
def gccsLevel (alphabet : List Char) (maxRC : ℕ) (node : PoaNodeRec) (cw : ℚ)
    (maxStrings : ℕ) (suffixes : List (List Char)) : Option (List (List Char)) :=
  let res := extendWithNode alphabet maxRC node cw suffixes
  if maxStrings < res.length then none else some res

/-- getCandidateConsensusSubstrings (bubbleGraph.c:323-422), with the
recursion depth expressed as the remaining interval width
count = toPos - fromPos: the C recurses on (fromPos + 1, toPos) while
fromPos + 1 < toPos and otherwise starts from the single empty suffix. -/
def getCandidateConsensusSubstringsAux (alphabet : List Char) (maxRC : ℕ)
    (nodes : List PoaNodeRec) (candidateWeights : ℕ → ℚ)
    (weightAdjustment : ℚ) (maxStrings : ℕ) :
    ℕ → ℕ → Option (List (List Char))
  | 0, fromPos =>
    gccsLevel alphabet maxRC (nodes.getD fromPos defaultPoaNode)
      (candidateWeights fromPos * weightAdjustment) maxStrings [[]]
  | 1, fromPos =>
    gccsLevel alphabet maxRC (nodes.getD fromPos defaultPoaNode)
      (candidateWeights fromPos * weightAdjustment) maxStrings [[]]
  | n + 2, fromPos =>
    match getCandidateConsensusSubstringsAux alphabet maxRC nodes candidateWeights
        weightAdjustment maxStrings (n + 1) (fromPos + 1) with
    | none => none
    | some suffixes =>
      gccsLevel alphabet maxRC (nodes.getD fromPos defaultPoaNode)
        (candidateWeights fromPos * weightAdjustment) maxStrings suffixes

/-- getCandidateConsensusSubstrings over the interval [fromPos, toPos). -/
def getCandidateConsensusSubstrings (alphabet : List Char) (maxRC : ℕ)
    (nodes : List PoaNodeRec) (candidateWeights : ℕ → ℚ)
    (weightAdjustment : ℚ) (maxStrings : ℕ) (fromPos toPos : ℕ) :
    Option (List (List Char)) :=
  getCandidateConsensusSubstringsAux alphabet maxRC nodes candidateWeights
    weightAdjustment maxStrings (toPos - fromPos) fromPos

/-- The unedited reference substring over the processed interval: at each
position the node's (uppercased) base repeated its reference repeat count,
with no inserts and no deletes.  The enumerator always processes at least the
position fromPos. -/
def refNoEditAux (nodes : List PoaNodeRec) (fromPos count : ℕ) : List Char :=
  ((List.range (max count 1)).map (fun (k : ℕ) =>
    List.replicate (nodes.getD (fromPos + k) defaultPoaNode).repeatCount
      (Char.toUpper (nodes.getD (fromPos + k) defaultPoaNode).base))).flatten

/-- The unedited reference substring of the interval [fromPos, toPos). -/
def refNoEditString (nodes : List PoaNodeRec) (fromPos toPos : ℕ) : List Char :=
  refNoEditAux nodes fromPos (toPos - fromPos)

/-! ## Local phasing correctness (claims C4, C9)

Implements src/impl/localPhasingCorrectness.c.  Doubles are modelled by
rationals; st_errAbort is modelled by the error side of Except. -/

/-- A phased variant (localPhasingCorrectness.h): 0-based position, allele
strings (reference first), the two distinct genotype allele indices and the
phase-set identifier.  The contig name plays no role in the per-contig
computation. -/
structure PhasedVariant where
  refPos : ℤ
  alleles : List String
  gt1 : ℕ
  gt2 : ℕ
  phaseSet : String
deriving DecidableEq

/-- The allele string a variant carries on its first haplotype. -/
def pvAllele1 (v : PhasedVariant) : String := v.alleles.getD v.gt1 ""

/-- The allele string a variant carries on its second haplotype. -/
def pvAllele2 (v : PhasedVariant) : String := v.alleles.getD v.gt2 ""

/-- phaseSetIntervals loop (localPhasingCorrectness.c:234-254): walk the
variants recording, per phase set, the first and last variant index; a
variant whose position is below its predecessor's aborts the run
(st_errAbort), modelled as the error side. -/
def phaseSetIntervalsLoop :
    List PhasedVariant → ℕ → ℤ → List (String × ℕ × ℕ) →
      Except String (List (String × ℕ × ℕ))
  | [], _, _, acc => .ok acc
  | pv :: rest, i, prevPos, acc =>
    if prevPos > pv.refPos then .error "phased variant out of order"
    else
      phaseSetIntervalsLoop rest (i + 1) pv.refPos
        (if (acc.lookup pv.phaseSet).isSome then
          acc.map (fun e => if e.1 = pv.phaseSet then (e.1, e.2.1, i) else e)
        else acc ++ [(pv.phaseSet, i, i)])

/-- phaseSetIntervals with the C initialisation (prevPos = -1, empty map). -/
def phaseSetIntervals (l : List PhasedVariant) :
    Except String (List (String × ℕ × ℕ)) :=
  phaseSetIntervalsLoop l 0 (-1) []

/-- Partial sums for one active pair of phase sets
(localPhasingCorrectness.h PartialPhaseSums). -/
structure PhasePartialSums where
  queryPhaseSet : String
  truthPhaseSet : String
  unphasedSum : ℚ
  phaseSum1 : ℚ
  phaseSum2 : ℚ
deriving DecidableEq

/-- Sweep state of phasingCorrectnessInternal: the active partial sums and the
four scalar accumulators. -/
structure PciState where
  sums : List PhasePartialSums
  totalSum : ℚ
  partitionSum : ℚ
  partitionTotalSum : ℚ
  outOfScopeSum : ℚ
deriving DecidableEq

/-- Initial sweep state (all accumulators zero, no active phase-set pairs). -/
def pciInit : PciState := ⟨[], 0, 0, 0, 0⟩

/-- Per-matched-variant pass over the partial sums
(localPhasingCorrectness.c:338-367): the co-phased pair contributes its
matching-polarity phase sum (which is then incremented), every other pair
contributes its unphased sum, and every pair's unphased sum is incremented.
Returns the updated sums, the contribution to totalSum, and whether the
co-phased pair was found. -/
def pciUpdateSums (qps tps : String) (m11 : Bool)
    (sums : List PhasePartialSums) : List PhasePartialSums × ℚ × Bool :=
  sums.foldl
    (fun st s =>
      if s.queryPhaseSet = qps ∧ s.truthPhaseSet = tps then
        (st.1 ++ [{ s with
            unphasedSum := s.unphasedSum + 1,
            phaseSum1 := if m11 then s.phaseSum1 + 1 else s.phaseSum1,
            phaseSum2 := if m11 then s.phaseSum2 else s.phaseSum2 + 1 }],
         st.2.1 + (if m11 then s.phaseSum1 else s.phaseSum2), true)
      else
        (st.1 ++ [{ s with unphasedSum := s.unphasedSum + 1 }],
         st.2.1 + s.unphasedSum, st.2.2))
    ([], 0, false)

/-- Decay of all partial sums (localPhasingCorrectness.c:389-394). -/
def pciDecaySums (d : ℚ) (sums : List PhasePartialSums) : List PhasePartialSums :=
  sums.map (fun s => { s with
    unphasedSum := s.unphasedSum * d,
    phaseSum1 := s.phaseSum1 * d,
    phaseSum2 := s.phaseSum2 * d })

/-- Full state update for a matched shared heterozygous variant
(localPhasingCorrectness.c:331-396): accumulate contributions and the
out-of-scope sum into totalSum, advance the partition series, create the
phase-set-pair sum on first encounter, then decay everything. -/
def pciMatchedUpdate (d : ℚ) (qps tps : String) (m11 : Bool)
    (st : PciState) : PciState :=
  let u := pciUpdateSums qps tps m11 st.sums
  let sums1 := if u.2.2 then u.1
    else u.1 ++ [⟨qps, tps, 1, if m11 then 1 else 0, if m11 then 0 else 1⟩]
  { sums := pciDecaySums d sums1,
    totalSum := st.totalSum + u.2.1 + st.outOfScopeSum,
    partitionSum := (st.partitionSum + 1) * d,
    partitionTotalSum := st.partitionTotalSum + st.partitionSum,
    outOfScopeSum := st.outOfScopeSum * d }

/-- Scope test for one partial sum (localPhasingCorrectness.c:411-412): the
pair has fallen out of scope when the current index has left either phase
set's interval.  The lookups always succeed for reachable sums. -/
def pciSumOut (qIv tIv : List (String × ℕ × ℕ)) (i j : ℤ)
    (s : PhasePartialSums) : Bool :=
  match qIv.lookup s.queryPhaseSet, tIv.lookup s.truthPhaseSet with
  | some qi, some ti =>
    decide (i < (qi.1 : ℤ)) || decide ((qi.2 : ℤ) < i) ||
      decide (j < (ti.1 : ℤ)) || decide ((ti.2 : ℤ) < j)
  | _, _ => false

/-- Garbage collection of out-of-scope phase-set pairs
(localPhasingCorrectness.c:402-428): their unphased sums are folded into the
out-of-scope accumulator and they are removed from the active list.  The C
code removes by swapping with the last element, which permutes the survivors;
as every later use of the list is order-independent in exact arithmetic, the
removal is modelled as an order-preserving filter. -/
def pciGc (qIv tIv : List (String × ℕ × ℕ)) (i j : ℤ) (st : PciState) :
    PciState :=
  { st with
    sums := st.sums.filter (fun s => !(pciSumOut qIv tIv i j s)),
    outOfScopeSum := st.outOfScopeSum +
      ((st.sums.filter (fun s => pciSumOut qIv tIv i j s)).map
        (fun s => s.unphasedSum)).sum }

/-- Main sweep of phasingCorrectnessInternal
(localPhasingCorrectness.c:293-429).  The traversal lists hold the variants in
visit order (the reversed lists for the backward sweep); i and j are the
current absolute indices into the query and truth lists, moved by +1 or -1
according to the direction.  Position-mismatched variants advance one side
and run the scope check; allele-mismatched or duplicate-allele sites are
skipped via `continue` (no scope check); matched sites run the full update
followed by the scope check. -/
def pciLoop (d : ℚ) (qIv tIv : List (String × ℕ × ℕ)) (fwd : Bool) :
    List PhasedVariant → List PhasedVariant → ℤ → ℤ → PciState → PciState
  | [], _, _, _, st => st
  | _ :: _, [], _, _, st => st
  | qpv :: qs, tpv :: ts, i, j, st =>
    if (fwd ∧ qpv.refPos < tpv.refPos) ∨ (¬fwd ∧ qpv.refPos > tpv.refPos) then
      pciLoop d qIv tIv fwd qs (tpv :: ts)
        (i + (if fwd then 1 else -1)) j
        (pciGc qIv tIv (i + (if fwd then 1 else -1)) j st)
    else if (fwd ∧ tpv.refPos < qpv.refPos) ∨ (¬fwd ∧ tpv.refPos > qpv.refPos) then
      pciLoop d qIv tIv fwd (qpv :: qs) ts
        i (j + (if fwd then 1 else -1))
        (pciGc qIv tIv i (j + (if fwd then 1 else -1)) st)
    else
      let m11 := pvAllele1 qpv == pvAllele1 tpv
      let m12 := pvAllele1 qpv == pvAllele2 tpv
      let m21 := pvAllele2 qpv == pvAllele1 tpv
      let m22 := pvAllele2 qpv == pvAllele2 tpv
      let i' := i + (if fwd then 1 else -1)
      let j' := j + (if fwd then 1 else -1)
      if !(m11 || m12) || !(m21 || m22) then
        pciLoop d qIv tIv fwd qs ts i' j' st
      else if 2 < (if m11 then 1 else 0) + (if m12 then 1 else 0) +
          (if m21 then 1 else 0) + (if m22 then (1 : ℕ) else 0) then
        pciLoop d qIv tIv fwd qs ts i' j' st
      else
        pciLoop d qIv tIv fwd qs ts i' j'
          (pciGc qIv tIv i' j' (pciMatchedUpdate d qpv.phaseSet tpv.phaseSet m11 st))
  termination_by qs ts _ _ _ => qs.length + ts.length
  decreasing_by
    all_goals simp only [List.length_cons]
    all_goals omega

/-- phasingCorrectnessInternal (localPhasingCorrectness.c:256-442): run the
sweep in the given direction and return (totalSum, partitionTotalSum). -/
def phasingCorrectnessInternal (qs ts : List PhasedVariant) (d : ℚ)
    (qIv tIv : List (String × ℕ × ℕ)) (fwd : Bool) : ℚ × ℚ :=
  let st := if fwd then pciLoop d qIv tIv true qs ts 0 0 pciInit
    else pciLoop d qIv tIv false qs.reverse ts.reverse
      ((qs.length : ℤ) - 1) ((ts.length : ℤ) - 1) pciInit
  (st.totalSum, st.partitionTotalSum)

/-- switchCorrectness loop (localPhasingCorrectness.c:454-513): count the
matchable shared heterozygous variants and the adjacent pairs whose relative
phase agrees (pairs crossing a phase-set boundary always count as correct). -/
def switchCorrectnessLoop :
    List PhasedVariant → List PhasedVariant →
      Option (String × String × Bool) → ℕ → ℕ → ℕ × ℕ
  | [], _, _, nP, nC => (nP, nC)
  | _ :: _, [], _, nP, nC => (nP, nC)
  | qpv :: qs, tpv :: ts, prev, nP, nC =>
    if qpv.refPos < tpv.refPos then
      switchCorrectnessLoop qs (tpv :: ts) prev nP nC
    else if tpv.refPos < qpv.refPos then
      switchCorrectnessLoop (qpv :: qs) ts prev nP nC
    else
      let m11 := pvAllele1 qpv == pvAllele1 tpv
      let m12 := pvAllele1 qpv == pvAllele2 tpv
      let m21 := pvAllele2 qpv == pvAllele1 tpv
      let m22 := pvAllele2 qpv == pvAllele2 tpv
      if !(m11 || m12) || !(m21 || m22) then
        switchCorrectnessLoop qs ts prev nP nC
      else if 2 < (if m11 then 1 else 0) + (if m12 then 1 else 0) +
          (if m21 then 1 else 0) + (if m22 then (1 : ℕ) else 0) then
        switchCorrectnessLoop qs ts prev nP nC
      else
        switchCorrectnessLoop qs ts (some (qpv.phaseSet, tpv.phaseSet, m11))
          (nP + 1)
          (match prev with
           | some pr =>
             if qpv.phaseSet == pr.1 && tpv.phaseSet == pr.2.1 then
               (if m11 == pr.2.2 then nC + 1 else nC)
             else nC + 1
           | none => nC)
  termination_by qs ts _ _ _ => qs.length + ts.length
  decreasing_by
    all_goals simp only [List.length_cons]
    all_goals omega

/-- switchCorrectness (localPhasingCorrectness.c:444-520): the fraction of
adjacent matchable shared variant pairs in phase agreement. -/
def switchCorrectness (qs ts : List PhasedVariant) : ℚ :=
  let r := switchCorrectnessLoop qs ts none 0 0
  (r.2 : ℚ) / ((r.1 : ℚ) - 1)

/-! ## Profile sequence quantization (claim C5)

Implements the per-read, per-bubble inner loop of bubbleGraph_getProfileSeqs
(bubbleGraph.c:2181-2196).  The log-probability arithmetic lives in ℝ.  The
quantization constant PROFILE_PROB_SCALAR and the logAdd fold seed LOG_ZERO
are external to src/, so the scalar is a parameter of the embedding. -/

/-- Modelled from the spec: total_log_prob = logsumexp(allele_log_probs); the
C code folds the external stMath_logAddExact over the supports starting from
LOG_ZERO (bubbleGraph.c:2184-2187). -/
noncomputable def logSumExpList (xs : List ℝ) : ℝ :=
  Real.log ((xs.map Real.exp).sum)

/-- One quantized profile byte (bubbleGraph.c:2192-2196): the scaled rounded
difference between the normalizer and the allele's support, clamped at 255. -/
noncomputable def quantizeProfileProb (scalar T x : ℝ) : ℤ :=
  if 255 < round (scalar * (T - x)) then 255 else round (scalar * (T - x))

/-- The strip of profile bytes one read receives at one bubble
(bubbleGraph.c:2181-2196): every allele's support quantized against the
bubble's logsumexp normalizer for that read. -/
noncomputable def profileBytes (scalar : ℝ) (xs : List ℝ) : List ℤ :=
  xs.map (fun x => quantizeProfileProb scalar (logSumExpList xs) x)

/-- phasingCorrectness (localPhasingCorrectness.c:522-559): decay range check
(fatal), the switch-correctness limit at decay 0, otherwise the two interval
tables (fatal on out-of-order variants) and the two sweeps combined as
(forward numerator + backward numerator) over the summed partition series. -/
def phasingCorrectness (qs ts : List PhasedVariant) (d : ℚ) :
    Except String ℚ :=
  if d < 0 ∨ 1 < d then .error "decay factor out of range"
  else if d = 0 then .ok (switchCorrectness qs ts)
  else
    match phaseSetIntervals qs, phaseSetIntervals ts with
    | .ok qIv, .ok tIv =>
      let f := phasingCorrectnessInternal qs ts d qIv tIv true
      let b := phasingCorrectnessInternal qs ts d qIv tIv false
      .ok ((f.1 + b.1) / (f.2 + b.2))
    | .error e, _ => .error e
    | .ok _, .error e => .error e

/-- The interval table phaseSetIntervals computes on a list that decomposes
into contiguous single-phase-set blocks: each block's phase set maps to the
index range the block occupies. -/
def blockIntervals : ℕ → List (String × List PhasedVariant) → List (String × ℕ × ℕ)
  | _, [] => []
  | i, (ps, blk) :: rest => (ps, i, i + blk.length - 1) :: blockIntervals (i + blk.length) rest

/-- The lookup facts the forward sweep needs from the interval table when the
traversal reaches index i with the given blocks remaining: each block's phase
set maps to exactly the block's index range. -/
def BlocksLookFwd (qIv : List (String × ℕ × ℕ)) : ℕ → List (String × List PhasedVariant) → Prop
  | _, [] => True
  | i, (ps, blk) :: rest =>
    qIv.lookup ps = some (i, i + blk.length - 1) ∧ BlocksLookFwd qIv (i + blk.length) rest

/-- The lookup facts the backward sweep needs when the traversal reaches
index i with the given (reversed) blocks remaining: each block's phase set
maps to the index range ending at the current index. -/
def BlocksLookBwd (qIv : List (String × ℕ × ℕ)) : ℤ → List (String × List PhasedVariant) → Prop
  | _, [] => True
  | i, (ps, blk) :: rest =>
    (∃ s e : ℕ, qIv.lookup ps = some (s, e) ∧ (e : ℤ) = i ∧
      (s : ℤ) = i - blk.length + 1) ∧
    BlocksLookBwd qIv (i - blk.length) rest

end Margin

namespace Margin

/-! ## Lemmas about RLE canonicity -/

theorem consRun_eq_cons (c : Char) (n : ℕ) (t : RleString)
    (h : ∀ u ∈ t.head?, c ≠ u.1) : consRun c n t = (c, n) :: t := by
  cases t with
  | nil => rfl
  | cons u t' =>
    obtain ⟨d, m⟩ := u
    have hd : c ≠ d := h (d, m) rfl
    simp [consRun, hd]

theorem consRun_consRun (c : Char) (n : ℕ) (t : RleString) :
    consRun c 1 (consRun c n t) = consRun c (1 + n) t := by
  cases t with
  | nil => simp [consRun]
  | cons u t' =>
    obtain ⟨d, m⟩ := u
    by_cases hd : c = d
    · subst hd
      simp [consRun, Nat.add_assoc]
    · simp [consRun, hd]

theorem rleConstruct_replicate_append (c : Char) (s : List Char) :
    ∀ n : ℕ, 0 < n →
      rleConstruct (List.replicate n c ++ s) = consRun c n (rleConstruct s) := by
  intro n
  induction n with
  | zero => intro h; exact absurd h (by simp)
  | succ k ih =>
    intro _
    by_cases hk : 0 < k
    · have : List.replicate (k + 1) c ++ s = c :: (List.replicate k c ++ s) := by
        simp [List.replicate_succ]
      rw [this]
      show consRun c 1 (rleConstruct (List.replicate k c ++ s)) = _
      rw [ih hk, consRun_consRun]
      congr 1
      omega
    · have hk0 : k = 0 := by omega
      subst hk0
      simp [List.replicate_succ]
      rfl

theorem rleConstruct_expand (r : RleString) (h : rleCanonical r) :
    rleConstruct (rleExpand r) = r := by
  induction r with
  | nil => rfl
  | cons u t ih =>
    obtain ⟨c, n⟩ := u
    obtain ⟨hpos, hchain⟩ := h
    have hn : 0 < n := hpos (c, n) (by simp)
    have ht : rleCanonical t :=
      ⟨fun v hv => hpos v (List.mem_cons_of_mem _ hv), hchain.tail⟩
    have hexp : rleExpand ((c, n) :: t) = List.replicate n c ++ rleExpand t := by
      simp [rleExpand]
    rw [hexp, rleConstruct_replicate_append c (rleExpand t) n hn, ih ht]
    apply consRun_eq_cons
    intro v hv
    cases t with
    | nil => simp at hv
    | cons w t' =>
      simp at hv
      subst hv
      have := List.chain'_cons.mp hchain
      exact this.1

theorem rleConstructNoRle_expand (r : RleString) (h : ∀ u ∈ r, u.2 = 1) :
    rleConstructNoRle (rleExpand r) = r := by
  induction r with
  | nil => rfl
  | cons u t ih =>
    obtain ⟨c, n⟩ := u
    have hn : n = 1 := h (c, n) (by simp)
    subst hn
    have hexp : rleExpand ((c, 1) :: t) = c :: rleExpand t := by
      simp [rleExpand]
    rw [hexp]
    show (c, 1) :: rleConstructNoRle (rleExpand t) = _
    rw [ih (fun v hv => h v (List.mem_cons_of_mem _ hv))]

theorem rleEncode_expand (useRle : Bool) (r : RleString) (h : rleCanonicalFor useRle r) :
    rleEncode useRle (rleExpand r) = r := by
  cases useRle with
  | true => exact rleConstruct_expand r (by simpa [rleCanonicalFor] using h)
  | false => exact rleConstructNoRle_expand r (by simpa [rleCanonicalFor] using h)

/-! ## Claim C1 -/

/-- C1: every bubble emitted by the bubble-graph builders
(bubbleGraph_constructFromPoaAndVCF and the VCF-only builder) carries its
reference allele among its alleles array, and has at least two alleles.  The
hypotheses record that the reference substring handed to the builder is a
well-formed RLE string for the active encoding mode, and (for the VCF-only
builder) that the external VCF parser supplies at least two allele substrings,
as asserted by the builder. -/
theorem C1_bubble_invariant :
    (∀ (useRle : Bool) (strs : List (List Char)) (r : RleString) (b : Bubble),
       rleCanonicalFor useRle r →
       bubble_fromCandidateAlleles useRle strs r = some b →
       b.refAllele ∈ b.alleles ∧ 2 ≤ b.alleleNo) ∧
    (∀ (useRle : Bool) (subs : List RleString) (n : ℕ) (b : Bubble),
       rleCanonicalFor useRle (subs.getD 0 []) →
       2 ≤ subs.length →
       bubble_fromVcfAlleleSubstrings useRle subs n = some b →
       b.refAllele ∈ b.alleles ∧ 2 ≤ b.alleleNo) := by
  constructor
  · intro useRle strs r b hcanon hmk
    unfold bubble_fromCandidateAlleles at hmk
    by_cases hmem : rleExpand r ∈ strs
    · simp only [hmem, if_true] at hmk
      by_cases hlen : 1 < strs.length
      · simp only [hlen, if_true, Option.some.injEq] at hmk
        subst hmk
        refine ⟨?_, by simpa using hlen⟩
        show r ∈ strs.map (rleEncode useRle)
        have : rleEncode useRle (rleExpand r) = r := rleEncode_expand useRle r hcanon
        exact this ▸ List.mem_map_of_mem (rleEncode useRle) hmem
      · simp [hlen] at hmk
    · simp only [hmem, if_false] at hmk
      by_cases hlen : 1 < (strs ++ [rleExpand r]).length
      · simp only [hlen, if_true, Option.some.injEq] at hmk
        subst hmk
        refine ⟨?_, by simpa using hlen⟩
        show r ∈ (strs ++ [rleExpand r]).map (rleEncode useRle)
        have henc : rleEncode useRle (rleExpand r) = r := rleEncode_expand useRle r hcanon
        have hm : rleEncode useRle (rleExpand r) ∈ (strs ++ [rleExpand r]).map (rleEncode useRle) :=
          List.mem_map_of_mem (rleEncode useRle) (by simp)
        rwa [henc] at hm
      · exfalso
        have h0 : ¬ 0 < strs.length := by
          intro hp
          exact hlen (by simp; omega)
        simp at hmk
        exact h0 hmk.1
  · intro useRle subs n b hcanon hlen hmk
    unfold bubble_fromVcfAlleleSubstrings at hmk
    by_cases hn : n = 0
    · simp [hn] at hmk
    · simp only [hn, if_false, Option.some.injEq] at hmk
      subst hmk
      refine ⟨?_, hlen⟩
      show rleEncode useRle (rleExpand (subs.getD 0 [])) ∈ subs
      rw [rleEncode_expand useRle _ hcanon]
      have hpos : 0 < subs.length := by omega
      cases subs with
      | nil => simp at hpos
      | cons a t => simp

/-- Witness for C1 at a concrete input: a two-allele bubble from the POA
builder and a two-allele bubble from the VCF-only builder. -/
theorem C1_bubble_invariant_witness :
    (∃ b : Bubble,
      bubble_fromCandidateAlleles true [['A'], ['C']] [('A', 1)] = some b ∧
      b.refAllele ∈ b.alleles ∧ 2 ≤ b.alleleNo) ∧
    (∃ b : Bubble,
      bubble_fromVcfAlleleSubstrings true [[('A', 1)], [('C', 1)]] 3 = some b ∧
      b.refAllele ∈ b.alleles ∧ 2 ≤ b.alleleNo) := by
  constructor
  · refine ⟨_, rfl, ?_⟩
    exact C1_bubble_invariant.1 true [['A'], ['C']] [('A', 1)] _
      (by exact ⟨by simp, by simp⟩) rfl
  · refine ⟨_, rfl, ?_⟩
    exact C1_bubble_invariant.2 true [[('A', 1)], [('C', 1)]] 3 _
      (by exact ⟨by simp, by simp⟩) (by decide) rfl

/-! ## Claim C6 -/

theorem expandFlags_getD (b : List Bool) (e : ℤ) (q : ℕ) (hq : q < b.length) :
    (expandFlags b e).getD q false =
      ((List.range b.length).any fun i =>
        b.getD i false && decide ((i : ℤ) - e ≤ (q : ℤ)) &&
          decide ((q : ℤ) < (i : ℤ) + e)) := by
  have h1 : (expandFlags b e)[q]? =
      some ((List.range b.length).any fun i =>
        b.getD i false && decide ((i : ℤ) - e ≤ (q : ℤ)) &&
          decide ((q : ℤ) < (i : ℤ) + e)) := by
    unfold expandFlags
    rw [List.getElem?_map, List.getElem?_range hq]
    rfl
  rw [List.getD_eq_getElem?_getD, h1]
  rfl

theorem getFilteredAnchorPositions_getD (cvp : List Bool) (trim : ℤ) (q : ℕ)
    (hq : q < cvp.length) :
    (getFilteredAnchorPositions cvp trim).getD q false =
      !((expandFlags cvp trim).getD q false) := by
  have hlen : q < (expandFlags cvp trim).length := by
    unfold expandFlags
    simpa using hq
  unfold getFilteredAnchorPositions
  rw [List.getD_eq_getElem?_getD, List.getElem?_map, List.getD_eq_getElem?_getD]
  cases hget : (expandFlags cvp trim)[q]? with
  | none =>
    exact absurd (List.getElem?_eq_none_iff.mp hget) (by omega)
  | some v => rfl

/-- C6 counterexample: with a single flagged position p = 1 and
column_anchor_trim = 1, the in-bounds position q = 2 satisfies
p - trim ≤ q ≤ p + trim but is still an anchor, because the C expansion loop
stops one short of i + expansion on the right. -/
theorem C6_counterexample :
    ([false, true, false, false].getD 1 false = true) ∧
    ((1 : ℤ) - 1 ≤ (2 : ℤ) ∧ (2 : ℤ) ≤ (1 : ℤ) + 1) ∧
    (getFilteredAnchorPositions [false, true, false, false] 1).getD 2 false = true := by
  decide

/-- C6 amended: for every flagged position p, every in-bounds position q with
p - column_anchor_trim ≤ q < p + column_anchor_trim (right end exclusive, one
less than the claim's symmetric bound) is not an anchor. -/
theorem C6_amended (cvp : List Bool) (trim : ℤ) (p q : ℕ)
    (hp : p < cvp.length) (hflag : cvp.getD p false = true) (hq : q < cvp.length)
    (hle : (p : ℤ) - trim ≤ (q : ℤ)) (hlt : (q : ℤ) < (p : ℤ) + trim) :
    (getFilteredAnchorPositions cvp trim).getD q false = false := by
  have hexp : (expandFlags cvp trim).getD q false = true := by
    rw [expandFlags_getD cvp trim q hq]
    rw [List.any_eq_true]
    exact ⟨p, List.mem_range.mpr hp, by rw [hflag]; simp [hle, hlt]⟩
  rw [getFilteredAnchorPositions_getD cvp trim q hq, hexp]
  rfl

/-- Witness for the amended C6 at a concrete input. -/
theorem C6_amended_witness :
    (getFilteredAnchorPositions [false, true, false] 1).getD 1 false = false :=
  C6_amended [false, true, false] 1 1 1 (by decide) (by decide) (by decide)
    (by decide) (by decide)

/-! ## Claim C10 -/

theorem filterReadSubstringsLoop_sublist (cov : ℕ) (minQ : ℚ) :
    ∀ (fuel : ℕ) (l : List ReadSubstringRec),
      (filterReadSubstringsLoop cov minQ fuel l).Sublist l := by
  intro fuel
  induction fuel with
  | zero => intro l; exact List.Sublist.refl l
  | succ k ih =>
    intro l
    show (filterReadSubstringsLoop cov minQ (k + 1) l).Sublist l
    unfold filterReadSubstringsLoop
    split
    · split
      · split
        · exact (ih l.dropLast).trans (List.dropLast_sublist l)
        · exact List.Sublist.refl l
      · exact List.Sublist.refl l
    · exact List.Sublist.refl l

/-- C10 counterexample: two reads, the first with higher average quality.  The
two-pointer walk yields the substrings in ascending read-number order, but
filterReadSubstrings re-sorts them by descending qualValue and the bubble
builder transfers them with stList_pop (reversing); the resulting read array
lists read 1 before read 0, so it is not ordered by source read index. -/
theorem C10_counterexample :
    ¬ List.Pairwise (fun a b => a.readNo ≤ b.readNo)
      (bubbleReadsFromPoa [⟨some [30]⟩, ⟨some [10]⟩]
        [⟨0, 0, 1⟩, ⟨1, 0, 1⟩] [⟨0, 1, 1⟩, ⟨1, 1, 1⟩] 10 0) := by
  have h : bubbleReadsFromPoa [⟨some [30]⟩, ⟨some [10]⟩]
        [⟨0, 0, 1⟩, ⟨1, 0, 1⟩] [⟨0, 1, 1⟩, ⟨1, 1, 1⟩] 10 0
      = [⟨1, 0, 1, 10⟩, ⟨0, 0, 1, 30⟩] := by
    norm_num [bubbleReadsFromPoa, filterReadSubstrings, filterReadSubstringsLoop,
      getReadSubstringsWalk, getReadSubstringsWalkAux, skipDupes,
      bamChunkRead_getSubstring, qualGE, List.insertionSort, List.orderedInsert,
      List.range_succ, List.range_zero]
  rw [h]
  decide

/-- C10 amended: the read array of a POA bubble is the reverse of the
quality-descending, coverage-trimmed substring list, hence it is ordered by
ascending qualValue (not by source read index). -/
theorem C10_amended (reads : List BamChunkRead)
    (fromObs toObs : List PoaObservation) (cov : ℕ) (minQ : ℚ) :
    List.Pairwise (fun a b => a.qualValue ≤ b.qualValue)
      (bubbleReadsFromPoa reads fromObs toObs cov minQ) := by
  unfold bubbleReadsFromPoa
  rw [List.pairwise_reverse]
  have hs : List.Sorted qualGE
      (List.insertionSort qualGE (getReadSubstringsWalk reads fromObs toObs)) :=
    List.sorted_insertionSort qualGE _
  exact List.Pairwise.sublist (filterReadSubstringsLoop_sublist _ _ _ _) hs

/-! ## Claim C8 -/

theorem rescueReadStep_fold (logAdd : ℚ → ℚ → ℚ) (r : ℕ) :
    ∀ (l : List (ℕ × ℚ × ℚ)) (init : (ℕ → ℚ) × (ℕ → ℚ)),
      ((l.foldl (rescueReadStep logAdd) init).1 r =
        init.1 r + (l.map (fun rs =>
          if rs.1 = r then rs.2.1 - logAdd rs.2.1 rs.2.2 else 0)).sum) ∧
      ((l.foldl (rescueReadStep logAdd) init).2 r =
        init.2 r + (l.map (fun rs =>
          if rs.1 = r then rs.2.2 - logAdd rs.2.2 rs.2.1 else 0)).sum) := by
  intro l
  induction l with
  | nil => intro init; simp
  | cons rs l ih =>
    intro init
    rw [List.foldl_cons, List.map_cons, List.sum_cons, List.map_cons, List.sum_cons]
    obtain ⟨ih1, ih2⟩ := ih (rescueReadStep logAdd init rs)
    constructor
    · rw [ih1]
      by_cases h : rs.1 = r
      · simp [rescueReadStep, h]
        ring
      · have h' : ¬ r = rs.1 := fun hc => h hc.symm
        simp [rescueReadStep, h, h']
    · rw [ih2]
      by_cases h : rs.1 = r
      · simp [rescueReadStep, h]
        ring
      · have h' : ¬ r = rs.1 := fun hc => h hc.symm
        simp [rescueReadStep, h, h']

theorem rescueBubbleStep_fold (logAdd : ℚ → ℚ → ℚ) (r : ℕ) :
    ∀ (bubbles : List RescueBubbleData) (init : (ℕ → ℚ) × (ℕ → ℚ)),
      ((bubbles.foldl (rescueBubbleStep logAdd) init).1 r =
        init.1 r + rescueScore1 logAdd bubbles r) ∧
      ((bubbles.foldl (rescueBubbleStep logAdd) init).2 r =
        init.2 r + rescueScore2 logAdd bubbles r) := by
  intro bubbles
  induction bubbles with
  | nil => intro init; simp [rescueScore1, rescueScore2]
  | cons b l ih =>
    intro init
    rw [List.foldl_cons]
    obtain ⟨ih1, ih2⟩ := ih (rescueBubbleStep logAdd init b)
    have hs1 : rescueScore1 logAdd (b :: l) r =
        (if b.hap1AlleleNo = b.hap2AlleleNo then 0
         else (b.reads.map (fun rs =>
           if rs.1 = r then rs.2.1 - logAdd rs.2.1 rs.2.2 else 0)).sum) +
        rescueScore1 logAdd l r := by
      simp [rescueScore1]
    have hs2 : rescueScore2 logAdd (b :: l) r =
        (if b.hap1AlleleNo = b.hap2AlleleNo then 0
         else (b.reads.map (fun rs =>
           if rs.1 = r then rs.2.2 - logAdd rs.2.2 rs.2.1 else 0)).sum) +
        rescueScore2 logAdd l r := by
      simp [rescueScore2]
    rw [hs1, hs2]
    by_cases h : b.hap1AlleleNo = b.hap2AlleleNo
    · constructor
      · rw [ih1]
        simp [rescueBubbleStep, h]
      · rw [ih2]
        simp [rescueBubbleStep, h]
    · obtain ⟨hr1, hr2⟩ := rescueReadStep_fold logAdd r b.reads init
      constructor
      · rw [ih1]
        simp only [rescueBubbleStep, if_neg h]
        rw [hr1]
        ring
      · rw [ih2]
        simp only [rescueBubbleStep, if_neg h]
        rw [hr2]
        ring

theorem rescueAccumulate_eq (logAdd : ℚ → ℚ → ℚ) (bubbles : List RescueBubbleData)
    (r : ℕ) :
    (rescueAccumulate logAdd bubbles).1 r = rescueScore1 logAdd bubbles r ∧
    (rescueAccumulate logAdd bubbles).2 r = rescueScore2 logAdd bubbles r := by
  unfold rescueAccumulate
  obtain ⟨h1, h2⟩ := rescueBubbleStep_fold logAdd r bubbles (fun _ => 0, fun _ => 0)
  constructor
  · rw [h1]; ring
  · rw [h2]; ring

/-- C8: bubbleGraph_partitionFilteredReads accumulates, per read and over all
heterozygous primary bubbles, acc1 += s1 - logsumexp(s1, s2) and
acc2 += s2 - logsumexp(s2, s1) starting from 0, then places the read in the
hap1 set iff acc1 > acc2, in the hap2 set iff acc2 > acc1, and in neither set
when acc1 = acc2. -/
theorem C8_partitionFilteredReads (allReads : List ℕ)
    (bubbles : List RescueBubbleData) (logAdd : ℚ → ℚ → ℚ) (r : ℕ) :
    (r ∈ (bubbleGraph_partitionFilteredReads allReads bubbles logAdd).1 ↔
      r ∈ allReads ∧ rescueScore2 logAdd bubbles r < rescueScore1 logAdd bubbles r) ∧
    (r ∈ (bubbleGraph_partitionFilteredReads allReads bubbles logAdd).2 ↔
      r ∈ allReads ∧ rescueScore1 logAdd bubbles r < rescueScore2 logAdd bubbles r) ∧
    ¬ (r ∈ (bubbleGraph_partitionFilteredReads allReads bubbles logAdd).1 ∧
       r ∈ (bubbleGraph_partitionFilteredReads allReads bubbles logAdd).2) := by
  obtain ⟨ha1, ha2⟩ := rescueAccumulate_eq logAdd bubbles r
  unfold bubbleGraph_partitionFilteredReads
  refine ⟨?_, ?_, ?_⟩
  · simp [List.mem_filter, ha1, ha2]
  · simp [List.mem_filter, ha1, ha2]
  · rintro ⟨h1, h2⟩
    simp [List.mem_filter, ha1, ha2] at h1 h2
    exact absurd h2.2 (lt_asymm h1.2)

/-! ## Claim C2 -/

theorem refineStep_partition (score : Finset ℕ × Finset ℕ → ℕ → ℚ × ℚ)
    (p : Finset ℕ × Finset ℕ) (S : Finset ℕ)
    (hu : p.1 ∪ p.2 = S) (hd : Disjoint p.1 p.2) :
    (refineStep score p).1 ∪ (refineStep score p).2 = S ∧
      Disjoint (refineStep score p).1 (refineStep score p).2 := by
  have hdl := Finset.disjoint_left.mp hd
  unfold refineStep
  dsimp only
  split
  · exact ⟨hu, hd⟩
  · constructor
    · rw [← hu]
      ext x
      have hx := @hdl x
      simp only [Finset.mem_union, Finset.mem_sdiff, Finset.mem_filter]
      tauto
    · rw [Finset.disjoint_left]
      intro x hx1 hx2
      have hx := @hdl x
      simp only [Finset.mem_union, Finset.mem_sdiff, Finset.mem_filter] at hx1 hx2
      tauto

theorem refineGenomeFragment_partition (score : Finset ℕ × Finset ℕ → ℕ → ℚ × ℚ) :
    ∀ (rounds : ℕ) (p : Finset ℕ × Finset ℕ) (S : Finset ℕ),
      p.1 ∪ p.2 = S → Disjoint p.1 p.2 →
      (refineGenomeFragment score rounds p).1 ∪ (refineGenomeFragment score rounds p).2 = S ∧
        Disjoint (refineGenomeFragment score rounds p).1 (refineGenomeFragment score rounds p).2 := by
  intro rounds
  induction rounds with
  | zero => intro p S hu hd; exact ⟨hu, hd⟩
  | succ n ih =>
    intro p S hu hd
    obtain ⟨hu', hd'⟩ := refineStep_partition score p S hu hd
    exact ih (refineStep score p) S hu' hd'

theorem rescueDiscarded_partition (rscore : ℕ → ℚ × ℚ) :
    ∀ (discarded : List ℕ) (p : Finset ℕ × Finset ℕ) (S : Finset ℕ),
      p.1 ∪ p.2 = S → Disjoint p.1 p.2 →
      (∀ r ∈ discarded, r ∉ S) → discarded.Nodup →
      (rescueDiscarded rscore discarded p).1 ∪ (rescueDiscarded rscore discarded p).2 =
          S ∪ discarded.toFinset ∧
        Disjoint (rescueDiscarded rscore discarded p).1 (rescueDiscarded rscore discarded p).2 := by
  intro discarded
  induction discarded with
  | nil =>
    intro p S hu hd _ _
    simpa [rescueDiscarded] using ⟨hu, hd⟩
  | cons r rest ih =>
    intro p S hu hd hfresh hnd
    have hr1 : r ∉ p.1 := fun hx => hfresh r (by simp) (hu ▸ Finset.mem_union_left _ hx)
    have hr2 : r ∉ p.2 := fun hx => hfresh r (by simp) (hu ▸ Finset.mem_union_right _ hx)
    have hstep : rescueDiscarded rscore (r :: rest) p =
        rescueDiscarded rscore rest
          (if (rscore r).1 < (rscore r).2 then (p.1, insert r p.2) else (insert r p.1, p.2)) := by
      simp [rescueDiscarded]
    rw [hstep]
    have hfresh' : ∀ x ∈ rest, x ∉ insert r S := by
      intro x hx
      simp only [Finset.mem_insert]
      rintro (rfl | hxS)
      · exact (List.nodup_cons.mp hnd).1 hx
      · exact hfresh x (List.mem_cons_of_mem _ hx) hxS
    have hnd' : rest.Nodup := (List.nodup_cons.mp hnd).2
    by_cases hc : (rscore r).1 < (rscore r).2
    · rw [if_pos hc]
      obtain ⟨hm1, hm2⟩ := ih (p.1, insert r p.2) (insert r S)
        (by show p.1 ∪ insert r p.2 = insert r S; rw [Finset.union_insert, hu])
        (by show Disjoint p.1 (insert r p.2)
            rw [Finset.disjoint_insert_right]
            exact ⟨hr1, hd⟩)
        hfresh' hnd'
      refine ⟨?_, hm2⟩
      rw [hm1, List.toFinset_cons]
      ext x
      simp only [Finset.mem_union, Finset.mem_insert]
      tauto
    · rw [if_neg hc]
      obtain ⟨hm1, hm2⟩ := ih (insert r p.1, p.2) (insert r S)
        (by show insert r p.1 ∪ p.2 = insert r S; rw [Finset.insert_union, hu])
        (by show Disjoint (insert r p.1) p.2
            rw [Finset.disjoint_insert_left]
            exact ⟨hr2, hd⟩)
        hfresh' hnd'
      refine ⟨?_, hm2⟩
      rw [hm1, List.toFinset_cons]
      ext x
      simp only [Finset.mem_union, Finset.mem_insert]
      tauto

/-- C2: after the phasing driver returns (including the rescue of the
coverage-filtered profile sequences, each inserted into exactly one side),
every profile sequence belongs to exactly one of the two read sets of the
returned genome fragment.  The hypotheses record that the external HMM stage
hands the driver a partition of the surviving reads (stGenomeFragment
read-set construction is outside src/), that the discarded reads are distinct,
and that they are disjoint from the survivors (filterReadsByCoverageDepth
splits the profile sequences into the two groups). -/
theorem C2_phaseBubbleGraph_partition (hmmReads1 hmmReads2 : Finset ℕ)
    (rounds : ℕ) (score : Finset ℕ × Finset ℕ → ℕ → ℚ × ℚ)
    (discarded : List ℕ) (rscore : ℕ → ℚ × ℚ)
    (hd : Disjoint hmmReads1 hmmReads2)
    (hnd : discarded.Nodup)
    (hfresh : ∀ r ∈ discarded, r ∉ hmmReads1 ∪ hmmReads2) :
    ∀ r ∈ hmmReads1 ∪ hmmReads2 ∪ discarded.toFinset,
      (r ∈ (bubbleGraph_phaseBubbleGraph hmmReads1 hmmReads2 rounds score discarded rscore).1 ∧
       r ∉ (bubbleGraph_phaseBubbleGraph hmmReads1 hmmReads2 rounds score discarded rscore).2) ∨
      (r ∈ (bubbleGraph_phaseBubbleGraph hmmReads1 hmmReads2 rounds score discarded rscore).2 ∧
       r ∉ (bubbleGraph_phaseBubbleGraph hmmReads1 hmmReads2 rounds score discarded rscore).1) := by
  intro r hr
  obtain ⟨hu1, hd1⟩ := refineGenomeFragment_partition score rounds (hmmReads1, hmmReads2)
    (hmmReads1 ∪ hmmReads2) rfl hd
  obtain ⟨hu2, hd2⟩ := rescueDiscarded_partition rscore discarded
    (refineGenomeFragment score rounds (hmmReads1, hmmReads2))
    (hmmReads1 ∪ hmmReads2) hu1 hd1 hfresh hnd
  unfold bubbleGraph_phaseBubbleGraph
  have hrmem : r ∈ (rescueDiscarded rscore discarded
      (refineGenomeFragment score rounds (hmmReads1, hmmReads2))).1 ∪
      (rescueDiscarded rscore discarded
      (refineGenomeFragment score rounds (hmmReads1, hmmReads2))).2 := by
    rw [hu2]
    exact hr
  have hdl := Finset.disjoint_left.mp hd2
  rcases Finset.mem_union.mp hrmem with h1 | h2
  · exact Or.inl ⟨h1, hdl h1⟩
  · exact Or.inr ⟨h2, fun hx => hdl hx h2⟩

/-! ## Claim C3 -/

theorem rleExpand_append (a b : RleString) :
    rleExpand (a ++ b) = rleExpand a ++ rleExpand b := by
  simp [rleExpand]

theorem rleSlice_append (r : RleString) (a m n : ℕ) :
    rleSlice r a (m + n) = rleSlice r a m ++ rleSlice r (a + m) n := by
  unfold rleSlice
  rw [List.take_add]
  congr 1
  rw [List.drop_drop]

theorem rleSlice_of_ge (r : RleString) (a : ℕ) :
    rleSlice r a (r.length - a) = r.drop a := by
  unfold rleSlice
  apply List.take_of_length_le
  rw [List.length_drop]

theorem consensusAdvance_eq_bound (useRle : Bool) (c p : Char) (k bound : ℕ)
    (h : k + 1 ≤ bound) : consensusAdvance useRle c p k bound = bound := by
  unfold consensusAdvance
  split <;> omega

theorem getConsensusLoop_nil (useRle : Bool) (refString : RleString)
    (k : ℕ) (prevBase : Char) :
    getConsensusLoop useRle refString [] k prevBase =
      if k < refString.length then
        rleExpand (rleSlice refString k (refString.length - k))
      else [] := rfl

theorem getConsensusLoop_cons (useRle : Bool) (refString : RleString)
    (b : ConsensusBubble) (p : ℕ) (rest : List (ConsensusBubble × ℕ))
    (k : ℕ) (prevBase : Char) :
    getConsensusLoop useRle refString ((b, p) :: rest) k prevBase =
      (if k < b.refStart then rleExpand (rleSlice refString k (b.refStart - k))
       else []) ++
      rleExpand (consensusChosen b p) ++
      getConsensusLoop useRle refString rest
        (if consensusChosen b p = b.refAllele then
          consensusAdvance useRle (rleHeadChar (consensusChosen b p))
            (if k < b.refStart then rleLastChar (rleSlice refString k (b.refStart - k))
             else prevBase)
            (if k < b.refStart then
              consensusAdvance useRle (rleHeadChar (rleSlice refString k (b.refStart - k)))
                prevBase k b.refStart
             else k)
            (b.refStart + b.refAllele.length)
         else
          (if k < b.refStart then
            consensusAdvance useRle (rleHeadChar (rleSlice refString k (b.refStart - k)))
              prevBase k b.refStart
           else k) + b.refAllele.length)
        (rleLastChar (consensusChosen b p)) := rfl

theorem getConsensusLoop_ref (useRle : Bool) (refString : RleString) :
    ∀ (pairs : List (ConsensusBubble × ℕ)) (k : ℕ) (prevBase : Char),
      (∀ pr ∈ pairs, consensusChosen pr.1 pr.2 = pr.1.refAllele) →
      (∀ pr ∈ pairs,
        pr.1.refAllele = rleSlice refString pr.1.refStart pr.1.refAllele.length ∧
        1 ≤ pr.1.refAllele.length ∧
        pr.1.refStart + pr.1.refAllele.length ≤ refString.length) →
      List.Chain' (fun a b => a.1.refStart + a.1.refAllele.length ≤ b.1.refStart) pairs →
      (∀ pr ∈ pairs.head?, k ≤ pr.1.refStart) →
      getConsensusLoop useRle refString pairs k prevBase =
        rleExpand (rleSlice refString k (refString.length - k)) := by
  intro pairs
  induction pairs with
  | nil =>
    intro k prevBase _ _ _ _
    rw [getConsensusLoop_nil]
    by_cases hk : k < refString.length
    · rw [if_pos hk]
    · rw [if_neg hk]
      have h0 : refString.length - k = 0 := by omega
      rw [h0]
      rfl
  | cons hd rest ih =>
    intro k prevBase hpath href hchain hhead
    obtain ⟨b, p⟩ := hd
    have hch : consensusChosen b p = b.refAllele := hpath (b, p) (by simp)
    obtain ⟨hslice0, hL0, hbound0⟩ := href (b, p) (by simp)
    have hslice : b.refAllele = rleSlice refString b.refStart b.refAllele.length := hslice0
    have hL : 1 ≤ b.refAllele.length := hL0
    have hbound : b.refStart + b.refAllele.length ≤ refString.length := hbound0
    clear hslice0 hL0 hbound0
    have hk : k ≤ b.refStart := hhead (b, p) rfl
    rw [getConsensusLoop_cons, hch, if_pos rfl]
    have hk1 : (if k < b.refStart then
        consensusAdvance useRle (rleHeadChar (rleSlice refString k (b.refStart - k)))
          prevBase k b.refStart
      else k) = b.refStart := by
      by_cases hklt : k < b.refStart
      · rw [if_pos hklt]
        exact consensusAdvance_eq_bound useRle _ _ k b.refStart (by omega)
      · rw [if_neg hklt]
        omega
    rw [hk1]
    rw [consensusAdvance_eq_bound useRle (rleHeadChar b.refAllele)
      (if k < b.refStart then rleLastChar (rleSlice refString k (b.refStart - k))
       else prevBase) b.refStart (b.refStart + b.refAllele.length) (by omega)]
    have hrest : getConsensusLoop useRle refString rest
        (b.refStart + b.refAllele.length) (rleLastChar b.refAllele) =
        rleExpand (rleSlice refString (b.refStart + b.refAllele.length)
          (refString.length - (b.refStart + b.refAllele.length))) := by
      apply ih
      · intro pr hpr; exact hpath pr (List.mem_cons_of_mem _ hpr)
      · intro pr hpr; exact href pr (List.mem_cons_of_mem _ hpr)
      · exact hchain.tail
      · intro pr hpr
        cases rest with
        | nil => simp at hpr
        | cons x xs =>
          have hx : x = pr := by simpa using hpr
          cases hx
          exact (List.chain'_cons.mp hchain).1
    rw [hrest]
    have hpre : (if k < b.refStart then
        rleExpand (rleSlice refString k (b.refStart - k)) else []) =
        rleExpand (rleSlice refString k (b.refStart - k)) := by
      by_cases hklt : k < b.refStart
      · rw [if_pos hklt]
      · rw [if_neg hklt]
        have h0 : b.refStart - k = 0 := by omega
        rw [h0]
        rfl
    rw [hpre]
    have harith : refString.length - k =
        (b.refStart - k) + (b.refAllele.length +
          (refString.length - (b.refStart + b.refAllele.length))) := by
      omega
    rw [harith, rleSlice_append, rleSlice_append, rleExpand_append, rleExpand_append]
    have hadd1 : k + (b.refStart - k) = b.refStart := by omega
    rw [hadd1]
    rw [List.append_assoc]
    congr 2
    · exact congrArg rleExpand hslice

/-- C3: whenever the consensus path selects the index of the reference allele
at every bubble (and the bubble graph satisfies the builder invariants: each
refAllele is the reference substring of its span, bubbles are non-empty,
ordered and non-overlapping, and lie within the reference), the consensus
string returned by bubbleGraph_getConsensusString is the re-run-length
encoding of the expanded reference string — i.e. it equals ref_string modulo
RLE round-tripping. -/
theorem C3_consensusString_of_refPath (useRle : Bool) (refString : RleString)
    (bubbles : List ConsensusBubble) (path : List ℕ)
    (hpath : ∀ pr ∈ bubbles.zip path, consensusChosen pr.1 pr.2 = pr.1.refAllele)
    (href : ∀ pr ∈ bubbles.zip path,
      pr.1.refAllele = rleSlice refString pr.1.refStart pr.1.refAllele.length ∧
      1 ≤ pr.1.refAllele.length ∧
      pr.1.refStart + pr.1.refAllele.length ≤ refString.length)
    (hchain : List.Chain'
      (fun a b => a.1.refStart + a.1.refAllele.length ≤ b.1.refStart)
      (bubbles.zip path)) :
    bubbleGraph_getConsensusString useRle refString bubbles path =
      rleEncode useRle (rleExpand refString) := by
  unfold bubbleGraph_getConsensusString
  rw [getConsensusLoop_ref useRle refString (bubbles.zip path) 0 '-' hpath href hchain
    (by intro pr _; exact Nat.zero_le _)]
  congr 1
  rw [Nat.sub_zero]
  unfold rleSlice
  rw [List.drop_zero, List.take_length]

/-! ## Claim C7 -/

theorem foldl_subset_of_step_subset {α β : Type} (f : List α → β → List α) :
    ∀ (l : List β), (∀ acc x, acc ⊆ f acc x) → ∀ init, init ⊆ l.foldl f init := by
  intro l
  induction l with
  | nil => intro _ init; exact List.Subset.refl init
  | cons y ys ih =>
    intro hf init
    rw [List.foldl_cons]
    exact List.Subset.trans (hf init y) (ih hf (f init y))

theorem mem_foldl_of_step {α β : Type} (f : List α → β → List α) (t : α) :
    ∀ (l : List β), (∀ acc x, acc ⊆ f acc x) → ∀ (x : β), x ∈ l →
      (∀ acc, t ∈ f acc x) → ∀ init, t ∈ l.foldl f init := by
  intro l
  induction l with
  | nil => intro _ x hx; exact absurd hx (by simp)
  | cons y ys ih =>
    intro hf x hx hstep init
    rw [List.foldl_cons]
    rcases List.mem_cons.mp hx with rfl | hx'
    · exact foldl_subset_of_step_subset f ys hf (f init x) (hstep init)
    · exact ih hf x hx' hstep (f init y)

theorem extendWithNode_rcStep_subset (node : PoaNodeRec) (cw : ℚ)
    (suffixes : List (List Char))
    (base : Char) (acc2 : List (List Char)) (rc : ℕ) :
    acc2 ⊆ (fun acc2 rc =>
      let bases := List.replicate rc base
      let acc3 := acc2 ++ suffixes.map (fun suf => bases ++ suf)
      let acc4 := (candidateInserts node cw).foldl
        (fun a ins => a ++ suffixes.map (fun suf => bases ++ rleExpand ins ++ suf))
        acc3
      (candidateDeletes node cw).foldl
        (fun a dl =>
          suffixes.foldl
            (fun a2 suf =>
              let s := bases ++ suf.drop dl
              if s ∈ a2 then a2 else a2 ++ [s])
            a)
        acc4) acc2 rc := by
  intro t ht
  dsimp only
  apply foldl_subset_of_step_subset
  · intro a dl
    apply foldl_subset_of_step_subset
    intro a2 suf
    dsimp only
    split
    · exact fun z hz => hz
    · exact fun z hz => List.mem_append_left _ hz
  · apply foldl_subset_of_step_subset
    · intro a ins
      exact List.subset_append_left _ _
    · exact List.mem_append_left _ ht

theorem extendWithNode_mem (alphabet : List Char) (maxRC : ℕ)
    (node : PoaNodeRec) (cw : ℚ) (suffixes : List (List Char))
    (suf : List Char)
    (hbase : Char.toUpper node.base ∈ alphabet)
    (hrc1 : 1 ≤ node.repeatCount)
    (hrc : node.repeatCount < maxRC)
    (hsuf : suf ∈ suffixes) :
    List.replicate node.repeatCount (Char.toUpper node.base) ++ suf ∈
      extendWithNode alphabet maxRC node cw suffixes := by
  unfold extendWithNode
  have hbmem : Char.toUpper node.base ∈ candidateBases alphabet node cw := by
    unfold candidateBases
    rw [List.mem_filterMap]
    obtain ⟨i, hi, hget⟩ := List.getElem_of_mem hbase
    refine ⟨i, List.mem_range.mpr hi, ?_⟩
    have hgetD : alphabet.getD i ' ' = Char.toUpper node.base := by
      rw [List.getD_eq_getElem?_getD, List.getElem?_eq_getElem hi, Option.getD_some, hget]
    rw [if_pos (Or.inr hgetD.symm), hgetD]
  have hrmem : node.repeatCount ∈ candidateRepeatCounts maxRC node cw := by
    unfold candidateRepeatCounts
    rw [List.mem_filter]
    refine ⟨List.mem_range'_1.mpr ⟨hrc1, by omega⟩, by simp⟩
  apply mem_foldl_of_step _ _ _ ?hstepall (Char.toUpper node.base) hbmem ?hthis
  case hstepall =>
    intro acc base
    apply foldl_subset_of_step_subset
    intro acc2 rc
    exact extendWithNode_rcStep_subset node cw suffixes base acc2 rc
  case hthis =>
    intro acc
    apply mem_foldl_of_step _ _ _ ?hstep2 node.repeatCount hrmem ?hthis2
    case hstep2 =>
      intro acc2 rc
      exact extendWithNode_rcStep_subset node cw suffixes _ acc2 rc
    case hthis2 =>
      intro acc2
      dsimp only
      have hmem3 : List.replicate node.repeatCount (Char.toUpper node.base) ++ suf ∈
          acc2 ++ suffixes.map
            (fun s => List.replicate node.repeatCount (Char.toUpper node.base) ++ s) :=
        List.mem_append_right _ (List.mem_map_of_mem _ hsuf)
      have hsub4 := foldl_subset_of_step_subset
        (fun a ins => a ++ suffixes.map
          (fun s => List.replicate node.repeatCount (Char.toUpper node.base) ++
            rleExpand ins ++ s))
        (candidateInserts node cw)
        (fun a ins => List.subset_append_left _ _)
        (acc2 ++ suffixes.map
          (fun s => List.replicate node.repeatCount (Char.toUpper node.base) ++ s))
      have hsub5 := foldl_subset_of_step_subset
        (fun a dl =>
          suffixes.foldl
            (fun a2 s =>
              if List.replicate node.repeatCount (Char.toUpper node.base) ++ s.drop dl ∈ a2
              then a2
              else a2 ++ [List.replicate node.repeatCount (Char.toUpper node.base) ++ s.drop dl])
            a)
        (candidateDeletes node cw)
        (fun a dl => by
          apply foldl_subset_of_step_subset
          intro a2 s
          dsimp only
          split
          · exact fun z hz => hz
          · exact fun z hz => List.mem_append_left _ hz)
      exact hsub5 _ (hsub4 hmem3)

theorem gccsLevel_mem (alphabet : List Char) (maxRC : ℕ) (node : PoaNodeRec)
    (cw : ℚ) (maxStrings : ℕ) (suffixes : List (List Char))
    (l : List (List Char)) (suf : List Char)
    (hbase : Char.toUpper node.base ∈ alphabet)
    (hrc1 : 1 ≤ node.repeatCount)
    (hrc : node.repeatCount < maxRC)
    (hsuf : suf ∈ suffixes)
    (hres : gccsLevel alphabet maxRC node cw maxStrings suffixes = some l) :
    List.replicate node.repeatCount (Char.toUpper node.base) ++ suf ∈ l := by
  unfold gccsLevel at hres
  by_cases hlen : maxStrings < (extendWithNode alphabet maxRC node cw suffixes).length
  · simp [hlen] at hres
  · simp only [hlen, if_neg, if_false, Option.some.injEq] at hres
    subst hres
    exact extendWithNode_mem alphabet maxRC node cw suffixes suf hbase hrc1 hrc hsuf

theorem refNoEditAux_zero (nodes : List PoaNodeRec) (fromPos : ℕ) :
    refNoEditAux nodes fromPos 0 =
      List.replicate (nodes.getD fromPos defaultPoaNode).repeatCount
        (Char.toUpper (nodes.getD fromPos defaultPoaNode).base) ++ [] := by
  simp [refNoEditAux, List.range_succ]

theorem refNoEditAux_one (nodes : List PoaNodeRec) (fromPos : ℕ) :
    refNoEditAux nodes fromPos 1 =
      List.replicate (nodes.getD fromPos defaultPoaNode).repeatCount
        (Char.toUpper (nodes.getD fromPos defaultPoaNode).base) ++ [] := by
  simp [refNoEditAux, List.range_succ]

theorem refNoEditAux_succ_succ (nodes : List PoaNodeRec) (fromPos n : ℕ) :
    refNoEditAux nodes fromPos (n + 2) =
      List.replicate (nodes.getD fromPos defaultPoaNode).repeatCount
        (Char.toUpper (nodes.getD fromPos defaultPoaNode).base) ++
        refNoEditAux nodes (fromPos + 1) (n + 1) := by
  unfold refNoEditAux
  have hmax1 : max (n + 2) 1 = (n + 1) + 1 := by omega
  have hmax2 : max (n + 1) 1 = n + 1 := by omega
  rw [hmax1, hmax2, List.range_succ_eq_map]
  simp only [List.map_cons, List.flatten_cons, List.map_map, Nat.add_zero]
  congr 1
  congr 1
  apply List.map_congr_left
  intro k _
  have : fromPos + (k + 1) = fromPos + 1 + k := by omega
  simp [Function.comp, this]

theorem gccsAux_refMem (alphabet : List Char) (maxRC : ℕ)
    (nodes : List PoaNodeRec) (candidateWeights : ℕ → ℚ)
    (weightAdjustment : ℚ) (maxStrings : ℕ) :
    ∀ (n fromPos : ℕ) (l : List (List Char)),
      (∀ k, fromPos ≤ k → k < fromPos + max n 1 →
        Char.toUpper (nodes.getD k defaultPoaNode).base ∈ alphabet ∧
        1 ≤ (nodes.getD k defaultPoaNode).repeatCount ∧
        (nodes.getD k defaultPoaNode).repeatCount < maxRC) →
      getCandidateConsensusSubstringsAux alphabet maxRC nodes candidateWeights
        weightAdjustment maxStrings n fromPos = some l →
      refNoEditAux nodes fromPos n ∈ l := by
  intro n
  induction n using Nat.strong_induction_on with
  | _ n ih =>
    intro fromPos l hnodes hres
    match n with
    | 0 =>
      obtain ⟨hbase, hrc1, hrc⟩ := hnodes fromPos (le_refl _) (by omega)
      rw [refNoEditAux_zero]
      exact gccsLevel_mem alphabet maxRC _ _ maxStrings [[]] l [] hbase hrc1 hrc
        (by simp) hres
    | 1 =>
      obtain ⟨hbase, hrc1, hrc⟩ := hnodes fromPos (le_refl _) (by omega)
      rw [refNoEditAux_one]
      exact gccsLevel_mem alphabet maxRC _ _ maxStrings [[]] l [] hbase hrc1 hrc
        (by simp) hres
    | m + 2 =>
      obtain ⟨hbase, hrc1, hrc⟩ := hnodes fromPos (le_refl _) (by omega)
      rw [refNoEditAux_succ_succ]
      show _ ∈ l
      unfold getCandidateConsensusSubstringsAux at hres
      cases hsuf : getCandidateConsensusSubstringsAux alphabet maxRC nodes
          candidateWeights weightAdjustment maxStrings (m + 1) (fromPos + 1) with
      | none => rw [hsuf] at hres; exact absurd hres (by simp)
      | some suffixes =>
        rw [hsuf] at hres
        have hsufmem : refNoEditAux nodes (fromPos + 1) (m + 1) ∈ suffixes := by
          apply ih (m + 1) (by omega) (fromPos + 1) suffixes ?_ hsuf
          intro k hk1 hk2
          exact hnodes k (by omega) (by omega)
        exact gccsLevel_mem alphabet maxRC _ _ maxStrings suffixes l _ hbase hrc1 hrc
          hsufmem hres

/-- C7: whenever getCandidateConsensusSubstrings returns a non-null list over
the interval [fromPos, toPos), that list contains the unedited reference
substring (the node's base with its reference repeat count at every position,
no inserts, no deletes): getNextCandidateBase always yields the reference
base, the caller's repeat-count iterator starting at l = 1 yields the
reference repeat count whenever it is nonzero, and the "too many
combinations" check only turns the whole list into the null sentinel.  Hence
the builder's retry loop with weight_adjustment 1.0, 1.5, 2.25, ... always
ends with a set containing the reference allele.  The hypotheses record that
each node's (uppercased) base belongs to the alphabet and its repeat count
lies in [1, maxRepeatCount), matching the caller's assert(repeatCount != 0)
at bubbleGraph.c:365. -/
theorem C7_candidateConsensus_containsRef (alphabet : List Char) (maxRC : ℕ)
    (nodes : List PoaNodeRec) (candidateWeights : ℕ → ℚ)
    (weightAdjustment : ℚ) (maxStrings : ℕ) (fromPos toPos : ℕ)
    (l : List (List Char))
    (hlt : fromPos < toPos)
    (hnodes : ∀ k, fromPos ≤ k → k < toPos →
      Char.toUpper (nodes.getD k defaultPoaNode).base ∈ alphabet ∧
      1 ≤ (nodes.getD k defaultPoaNode).repeatCount ∧
      (nodes.getD k defaultPoaNode).repeatCount < maxRC)
    (hres : getCandidateConsensusSubstrings alphabet maxRC nodes
      candidateWeights weightAdjustment maxStrings fromPos toPos = some l) :
    refNoEditString nodes fromPos toPos ∈ l := by
  unfold getCandidateConsensusSubstrings at hres
  unfold refNoEditString
  apply gccsAux_refMem alphabet maxRC nodes candidateWeights weightAdjustment
    maxStrings (toPos - fromPos) fromPos l ?_ hres
  intro k hk1 hk2
  apply hnodes k hk1
  omega

/-- Witness for C7 at a concrete input: a one-node interval whose candidate
set is exactly the reference string. -/
theorem C7_candidateConsensus_containsRef_witness :
    refNoEditString [⟨'A', 1, fun _ => 0, fun _ => 0, [], []⟩] 0 1 ∈ [['A']] :=
  C7_candidateConsensus_containsRef ['A'] 2
    [⟨'A', 1, fun _ => 0, fun _ => 0, [], []⟩] (fun _ => 1) 1 5 0 1 [['A']]
    (by norm_num)
    (by
      intro k h1 h2
      have hk : k = 0 := by omega
      subst hk
      exact ⟨by decide, by decide, by decide⟩)
    (by
      norm_num [getCandidateConsensusSubstrings, getCandidateConsensusSubstringsAux,
        gccsLevel, extendWithNode, candidateBases, candidateRepeatCounts,
        candidateInserts, candidateDeletes, defaultPoaNode, List.range_succ,
        List.foldl_cons, List.foldl_nil, List.filterMap_cons]
      decide)

/-- Witness for C3 at a concrete input: one bubble over a three-unit RLE
reference whose path picks the reference allele. -/
theorem C3_consensusString_of_refPath_witness :
    bubbleGraph_getConsensusString true [('A', 1), ('C', 2), ('G', 1)]
      [⟨1, [('C', 2)], [[('C', 2)], [('T', 1)]]⟩] [0] =
      rleEncode true (rleExpand [('A', 1), ('C', 2), ('G', 1)]) :=
  C3_consensusString_of_refPath true [('A', 1), ('C', 2), ('G', 1)]
    [⟨1, [('C', 2)], [[('C', 2)], [('T', 1)]]⟩] [0]
    (by decide) (by decide) (by simp)

/-- Witness for C2 at a concrete input: two surviving reads split by the HMM,
one refinement round, one rescued read. -/
theorem C2_phaseBubbleGraph_partition_witness :
    (2 ∈ (bubbleGraph_phaseBubbleGraph {0} {1} 1 (fun _ _ => (0, 0)) [2] (fun _ => (0, 0))).1 ∧
     2 ∉ (bubbleGraph_phaseBubbleGraph {0} {1} 1 (fun _ _ => (0, 0)) [2] (fun _ => (0, 0))).2) ∨
    (2 ∈ (bubbleGraph_phaseBubbleGraph {0} {1} 1 (fun _ _ => (0, 0)) [2] (fun _ => (0, 0))).2 ∧
     2 ∉ (bubbleGraph_phaseBubbleGraph {0} {1} 1 (fun _ _ => (0, 0)) [2] (fun _ => (0, 0))).1) :=
  C2_phaseBubbleGraph_partition {0} {1} 1 (fun _ _ => (0, 0)) [2] (fun _ => (0, 0))
    (by simp) (by simp) (by simp) 2 (by simp)

/-- If the positions are not ascending from the loop's seed, the interval
scan aborts. -/
lemma phaseSetIntervalsLoop_error_of_unsorted :
    ∀ (l : List PhasedVariant) (i : ℕ) (prev : ℤ) (acc : List (String × ℕ × ℕ)),
      ¬ List.Chain (fun x y => x ≤ y) prev (l.map PhasedVariant.refPos) →
      ∃ e, phaseSetIntervalsLoop l i prev acc = .error e := by
  intro l
  induction l with
  | nil => intro i prev acc h; exact absurd List.Chain.nil h
  | cons v rest ih =>
    intro i prev acc h
    rw [List.map_cons, List.chain_cons] at h
    by_cases hle : prev > v.refPos
    · exact ⟨"phased variant out of order", by rw [phaseSetIntervalsLoop, if_pos hle]⟩
    · have hch : ¬ List.Chain (fun x y => x ≤ y) v.refPos (rest.map PhasedVariant.refPos) := by
        intro hc
        exact h ⟨by omega, hc⟩
      obtain ⟨e, he⟩ := ih (i + 1) v.refPos
        (if (acc.lookup v.phaseSet).isSome then
          acc.map (fun p => if p.1 = v.phaseSet then (p.1, p.2.1, i) else p)
        else acc ++ [(v.phaseSet, i, i)]) hch
      exact ⟨e, by rw [phaseSetIntervalsLoop, if_neg hle]; exact he⟩

/-- C9: FALSE as stated.  Out-of-order phased variants are not a soft,
skippable anomaly: phaseSetIntervals aborts the run (st_errAbort,
localPhasingCorrectness.c:240-242), and phasingCorrectness with a positive
decay propagates the abort.  Concretely, positions 5 then 3 abort both. -/
theorem C9_counterexample :
    (phaseSetIntervals
        [⟨5, ["A", "C"], 0, 1, "ps1"⟩, ⟨3, ["A", "C"], 0, 1, "ps1"⟩]).toOption = none ∧
    (phasingCorrectness
        [⟨5, ["A", "C"], 0, 1, "ps1"⟩, ⟨3, ["A", "C"], 0, 1, "ps1"⟩]
        [⟨5, ["A", "C"], 0, 1, "ps1"⟩, ⟨3, ["A", "C"], 0, 1, "ps1"⟩]
        (1 / 2)).toOption = none := by
  constructor
  · norm_num [phaseSetIntervals, phaseSetIntervalsLoop, Except.toOption]
  · norm_num [phasingCorrectness, phaseSetIntervals, phaseSetIntervalsLoop,
      Except.toOption]

/-- C9 (amended): encountering phased variants that are out of position order
is fatal, not a soft anomaly: for every positive in-range decay,
phasingCorrectness on a query list whose positions do not ascend (from the
scan's seed -1) aborts with an error instead of skipping the record. -/
theorem C9_amended (qs ts : List PhasedVariant) (d : ℚ)
    (h : ¬ List.Chain (fun x y => x ≤ y) (-1) (qs.map PhasedVariant.refPos))
    (hd0 : 0 < d) (hd1 : d ≤ 1) :
    ∃ e, phasingCorrectness qs ts d = .error e := by
  obtain ⟨e, he⟩ := phaseSetIntervalsLoop_error_of_unsorted qs 0 (-1) [] h
  refine ⟨e, ?_⟩
  rw [phasingCorrectness, if_neg (by push_neg; constructor <;> linarith),
    if_neg (by linarith)]
  rw [show phaseSetIntervals qs = .error e from he]

/-- Witness for the amended C9 at a concrete input: positions 5 then 3 with
decay 1/2 abort. -/
theorem C9_amended_witness :
    ∃ e, phasingCorrectness
        [⟨5, ["A", "C"], 0, 1, "ps1"⟩, ⟨3, ["A", "C"], 0, 1, "ps1"⟩] [] (1 / 2) =
      .error e :=
  C9_amended _ _ _ (by norm_num [List.chain_cons]) (by norm_num) (by norm_num)

/-- Forward sweep step: a variant shared by query and truth with distinct
genotype alleles takes the matched branch with matching polarity 1-1/2-2. -/
lemma pciLoop_cons_self_fwd (d : ℚ) (qIv tIv : List (String × ℕ × ℕ))
    (v : PhasedVariant) (qs ts : List PhasedVariant) (i j : ℤ) (st : PciState)
    (hhet : pvAllele1 v ≠ pvAllele2 v) :
    pciLoop d qIv tIv true (v :: qs) (v :: ts) i j st =
      pciLoop d qIv tIv true qs ts (i + 1) (j + 1)
        (pciGc qIv tIv (i + 1) (j + 1)
          (pciMatchedUpdate d v.phaseSet v.phaseSet true st)) := by
  have h12 : (pvAllele1 v == pvAllele2 v) = false := by simpa using hhet
  have h21 : (pvAllele2 v == pvAllele1 v) = false := by simpa using hhet.symm
  rw [pciLoop]
  simp [h12, h21]

/-- Backward sweep step: same as the forward step with decreasing indices. -/
lemma pciLoop_cons_self_bwd (d : ℚ) (qIv tIv : List (String × ℕ × ℕ))
    (v : PhasedVariant) (qs ts : List PhasedVariant) (i j : ℤ) (st : PciState)
    (hhet : pvAllele1 v ≠ pvAllele2 v) :
    pciLoop d qIv tIv false (v :: qs) (v :: ts) i j st =
      pciLoop d qIv tIv false qs ts (i + -1) (j + -1)
        (pciGc qIv tIv (i + -1) (j + -1)
          (pciMatchedUpdate d v.phaseSet v.phaseSet true st)) := by
  have h12 : (pvAllele1 v == pvAllele2 v) = false := by simpa using hhet
  have h21 : (pvAllele2 v == pvAllele1 v) = false := by simpa using hhet.symm
  rw [pciLoop]
  simp [h12, h21]

/-- Matched update starting a new phase-set pair: the sums list is empty, so
only the out-of-scope accumulator contributes and a fresh decayed pair is
created. -/
lemma pciMatchedUpdate_emptysums (d : ℚ) (ps : String) (T P T' O : ℚ) :
    pciMatchedUpdate d ps ps true ⟨[], T, P, T', O⟩ =
      ⟨[⟨ps, ps, d, d, 0⟩], T + O, (P + 1) * d, T' + P, O * d⟩ := by
  simp [pciMatchedUpdate, pciUpdateSums, pciDecaySums]

/-- Matched update on the sweep's invariant state shape: a single co-phased
pair whose unphased and polarity-1 sums agree and whose totals agree. -/
lemma pciMatchedUpdate_pair (d : ℚ) (ps : String) (u T P O : ℚ) :
    pciMatchedUpdate d ps ps true ⟨[⟨ps, ps, u, u, 0⟩], T, P, T, O⟩ =
      ⟨[⟨ps, ps, (u + 1) * d, (u + 1) * d, 0⟩], T + u + O, (P + 1) * d,
        T + P, O * d⟩ := by
  simp [pciMatchedUpdate, pciUpdateSums, pciDecaySums]

/-- Garbage collection keeps a pair whose phase-set interval contains the
current index. -/
lemma pciGc_pair_keep (qIv : List (String × ℕ × ℕ)) (ps : String) (s e : ℕ)
    (i : ℤ) (u p1 p2 a b c O : ℚ)
    (hl : qIv.lookup ps = some (s, e))
    (hi0 : (s : ℤ) ≤ i) (hi1 : i ≤ (e : ℤ)) :
    pciGc qIv qIv i i ⟨[⟨ps, ps, u, p1, p2⟩], a, b, c, O⟩ =
      ⟨[⟨ps, ps, u, p1, p2⟩], a, b, c, O⟩ := by
  have hout : pciSumOut qIv qIv i i ⟨ps, ps, u, p1, p2⟩ = false := by
    simp only [pciSumOut, hl]
    simp only [Bool.or_eq_false_iff, decide_eq_false_iff_not]
    omega
  simp [pciGc, List.filter, hout]

/-- Garbage collection removes a pair whose phase-set interval no longer
contains the current index, folding its unphased sum into the out-of-scope
accumulator. -/
lemma pciGc_pair_remove (qIv : List (String × ℕ × ℕ)) (ps : String) (s e : ℕ)
    (i : ℤ) (u p1 p2 a b c O : ℚ)
    (hl : qIv.lookup ps = some (s, e))
    (hviol : (e : ℤ) < i ∨ i < (s : ℤ)) :
    pciGc qIv qIv i i ⟨[⟨ps, ps, u, p1, p2⟩], a, b, c, O⟩ =
      ⟨[], a, b, c, O + u⟩ := by
  have hout : pciSumOut qIv qIv i i ⟨ps, ps, u, p1, p2⟩ = true := by
    simp only [pciSumOut, hl]
    rcases hviol with h | h
    · simp [decide_eq_true h]
    · simp [decide_eq_true h]
  simp [pciGc, List.filter, hout]

/-- Lookup skips a prefix in which the key is absent. -/
lemma lookup_append_of_none {β : Type} (k : String) :
    ∀ (acc l : List (String × β)), acc.lookup k = none →
      (acc ++ l).lookup k = l.lookup k := by
  intro acc
  induction acc with
  | nil => intro l _; rfl
  | cons pr es ih =>
    intro l h
    obtain ⟨k1, v1⟩ := pr
    rw [List.cons_append, List.lookup]
    rw [List.lookup] at h
    cases hk : (k == k1) with
    | true => rw [hk] at h; simp at h
    | false => rw [hk] at h; exact ih l h

/-- Updating the closing index of a phase set absent from the table leaves
the table unchanged. -/
lemma map_update_of_lookup_none (ps : String) (j : ℕ) :
    ∀ (acc : List (String × ℕ × ℕ)), acc.lookup ps = none →
      acc.map (fun e => if e.1 = ps then (e.1, e.2.1, j) else e) = acc := by
  intro acc
  induction acc with
  | nil => intro _; rfl
  | cons pr es ih =>
    intro h
    obtain ⟨k1, v1⟩ := pr
    rw [List.lookup] at h
    cases hk : (ps == k1) with
    | true => rw [hk] at h; simp at h
    | false =>
      rw [hk] at h
      have hne : ¬((k1, v1).1 = ps) := by
        intro hkk
        rw [show k1 = ps from hkk] at hk
        simp at hk
      rw [List.map_cons, if_neg hne, ih h]

/-- Interval scan across one phase-set block whose entry is the last in the
table: only the entry's closing index moves, to the block's last index. -/
lemma phaseSetIntervalsLoop_run (ps : String) :
    ∀ (blk rest : List PhasedVariant) (i : ℕ) (prev : ℤ)
      (acc : List (String × ℕ × ℕ)) (a b : ℕ),
      (∀ v ∈ blk, v.phaseSet = ps) →
      List.Chain (fun x y => x ≤ y) prev
        ((blk ++ rest).map PhasedVariant.refPos) →
      acc.lookup ps = none →
      ∃ prev', phaseSetIntervalsLoop (blk ++ rest) i prev (acc ++ [(ps, a, b)]) =
          phaseSetIntervalsLoop rest (i + blk.length) prev'
            (acc ++ [(ps, a, if blk = [] then b else i + blk.length - 1)]) ∧
        List.Chain (fun x y => x ≤ y) prev' (rest.map PhasedVariant.refPos) := by
  intro blk
  induction blk with
  | nil =>
    intro rest i prev acc a b _ hch _
    refine ⟨prev, by simp, by simpa using hch⟩
  | cons v brest ih =>
    intro rest i prev acc a b hps hch hacc
    rw [List.cons_append, List.map_cons, List.chain_cons] at hch
    obtain ⟨h1, h2⟩ := hch
    rw [List.cons_append, phaseSetIntervalsLoop, if_neg (by omega)]
    have hupd : (if ((acc ++ [(ps, a, b)]).lookup v.phaseSet).isSome then
        (acc ++ [(ps, a, b)]).map
          (fun e => if e.1 = v.phaseSet then (e.1, e.2.1, i) else e)
      else (acc ++ [(ps, a, b)]) ++ [(v.phaseSet, i, i)]) = acc ++ [(ps, a, i)] := by
      rw [hps v (by simp)]
      rw [if_pos (show ((acc ++ [(ps, a, b)]).lookup ps).isSome = true by
        rw [lookup_append_of_none ps acc _ hacc]; simp [List.lookup])]
      rw [List.map_append, map_update_of_lookup_none ps i acc hacc]
      simp
    rw [hupd]
    obtain ⟨prev', heq, hch'⟩ := ih rest (i + 1) v.refPos acc a i
      (fun w hw => hps w (List.mem_cons_of_mem _ hw)) h2 hacc
    refine ⟨prev', ?_, hch'⟩
    rw [heq]
    simp only [List.length_cons]
    by_cases hbr : brest = []
    · subst hbr
      simp
    · rw [if_neg hbr, if_neg (by simp)]
      have hx1 : i + 1 + brest.length = i + (brest.length + 1) := by omega
      rw [hx1]

/-- phaseSetIntervalsLoop on a blockwise list appends one interval per block:
each phase set maps to the index range of its contiguous block. -/
lemma phaseSetIntervalsLoop_blocks :
    ∀ (blocks : List (String × List PhasedVariant)) (i : ℕ) (prev : ℤ)
      (acc : List (String × ℕ × ℕ)),
      (∀ p ∈ blocks, p.2 ≠ []) →
      (∀ p ∈ blocks, ∀ v ∈ p.2, v.phaseSet = p.1) →
      List.Chain (fun x y => x ≤ y) prev
        (((blocks.map Prod.snd).flatten).map PhasedVariant.refPos) →
      (∀ p ∈ blocks, acc.lookup p.1 = none) →
      (blocks.map Prod.fst).Pairwise (fun x y => x ≠ y) →
      phaseSetIntervalsLoop ((blocks.map Prod.snd).flatten) i prev acc =
        .ok (acc ++ blockIntervals i blocks) := by
  intro blocks
  induction blocks with
  | nil =>
    intro i prev acc _ _ _ _ _
    simp [phaseSetIntervalsLoop, blockIntervals]
  | cons pr bs ih =>
    obtain ⟨ps, blk⟩ := pr
    intro i prev acc hne hps hch hfresh hdist
    obtain ⟨w, brest, rfl⟩ : ∃ w brest, blk = w :: brest := by
      have hb : blk ≠ [] := hne (ps, blk) (by simp)
      cases blk with
      | nil => exact absurd rfl hb
      | cons x xs => exact ⟨x, xs, rfl⟩
    have hw : w.phaseSet = ps := hps (ps, w :: brest) (by simp) w (by simp)
    have hf0 : acc.lookup ps = none := hfresh (ps, w :: brest) (by simp)
    simp only [List.map_cons, List.flatten_cons] at hch ⊢
    rw [List.cons_append] at hch ⊢
    rw [List.map_cons, List.chain_cons] at hch
    obtain ⟨h1, h2⟩ := hch
    rw [phaseSetIntervalsLoop, if_neg (by omega)]
    have hupd : (if (acc.lookup w.phaseSet).isSome then
        acc.map (fun e => if e.1 = w.phaseSet then (e.1, e.2.1, i) else e)
      else acc ++ [(w.phaseSet, i, i)]) = acc ++ [(ps, i, i)] := by
      rw [hw, if_neg (by rw [hf0]; simp)]
    rw [hupd]
    obtain ⟨prev', heq, hch'⟩ := phaseSetIntervalsLoop_run ps brest
      ((bs.map Prod.snd).flatten) (i + 1) w.refPos acc i i
      (fun v hv => hps (ps, w :: brest) (by simp) v (List.mem_cons_of_mem _ hv))
      h2 hf0
    rw [heq]
    have hval : (if brest = [] then i else i + 1 + brest.length - 1) =
        i + brest.length := by
      by_cases hbr : brest = []
      · subst hbr; simp
      · rw [if_neg hbr]
        have := List.length_pos.mpr hbr
        omega
    rw [hval]
    rw [List.map_cons, List.pairwise_cons] at hdist
    obtain ⟨hhead, htail⟩ := hdist
    have hfresh' : ∀ p ∈ bs, (acc ++ [(ps, i, i + brest.length)]).lookup p.1 = none := by
      intro p hp
      have hbneq : (p.1 == ps) = false :=
        beq_eq_false_iff_ne.mpr (Ne.symm (hhead p.1 (List.mem_map_of_mem Prod.fst hp)))
      rw [lookup_append_of_none p.1 acc _ (hfresh p (List.mem_cons_of_mem _ hp))]
      simp [List.lookup, hbneq]
    rw [ih (i + 1 + brest.length) prev' (acc ++ [(ps, i, i + brest.length)])
      (fun p hp => hne p (List.mem_cons_of_mem _ hp))
      (fun p hp => hps p (List.mem_cons_of_mem _ hp)) hch' hfresh' htail]
    rw [blockIntervals]
    simp only [List.length_cons]
    have hx1 : i + 1 + brest.length = i + (brest.length + 1) := by omega
    have hx2 : i + (brest.length + 1) - 1 = i + brest.length := by omega
    rw [hx1, hx2]
    simp [List.append_assoc]

/-- Every entry of the block interval table keys one of the blocks. -/
lemma blockIntervals_fst_mem :
    ∀ (blocks : List (String × List PhasedVariant)) (i : ℕ)
      (pr : String × ℕ × ℕ),
      pr ∈ blockIntervals i blocks → pr.1 ∈ blocks.map Prod.fst := by
  intro blocks
  induction blocks with
  | nil => intro i pr h; simp [blockIntervals] at h
  | cons p bs ih =>
    obtain ⟨ps, blk⟩ := p
    intro i pr h
    rw [blockIntervals] at h
    rcases List.mem_cons.mp h with rfl | h'
    · simp
    · simp only [List.map_cons, List.mem_cons]
      exact Or.inr (ih _ _ h')

/-- With pairwise distinct block phase sets, looking up any entry's key in
the block interval table returns that entry's interval. -/
lemma blockIntervals_lookup_self :
    ∀ (blocks : List (String × List PhasedVariant)) (i : ℕ),
      (blocks.map Prod.fst).Pairwise (fun x y => x ≠ y) →
      ∀ pr ∈ blockIntervals i blocks,
        (blockIntervals i blocks).lookup pr.1 = some pr.2 := by
  intro blocks
  induction blocks with
  | nil => intro i _ pr h; simp [blockIntervals] at h
  | cons p bs ih =>
    obtain ⟨ps, blk⟩ := p
    intro i hdist pr h
    rw [List.map_cons, List.pairwise_cons] at hdist
    obtain ⟨hhead, htail⟩ := hdist
    rw [blockIntervals] at h ⊢
    rcases List.mem_cons.mp h with rfl | h'
    · simp [List.lookup]
    · have hbeq : (pr.1 == ps) = false :=
        beq_eq_false_iff_ne.mpr (Ne.symm (hhead pr.1 (blockIntervals_fst_mem bs _ pr h')))
      rw [List.lookup, hbeq]
      exact ih _ htail pr h'

/-- BlocksLookFwd follows from the table containing every block entry. -/
lemma blocksLookFwd_of_lookup (qIv : List (String × ℕ × ℕ)) :
    ∀ (blocks : List (String × List PhasedVariant)) (i : ℕ),
      (∀ pr ∈ blockIntervals i blocks, qIv.lookup pr.1 = some pr.2) →
      BlocksLookFwd qIv i blocks := by
  intro blocks
  induction blocks with
  | nil => intro i _; rw [BlocksLookFwd]; trivial
  | cons p bs ih =>
    obtain ⟨ps, blk⟩ := p
    intro i hq
    rw [BlocksLookFwd]
    have hthis : qIv.lookup ps = some (i, i + blk.length - 1) :=
      hq (ps, i, i + blk.length - 1) (by rw [blockIntervals]; simp)
    refine ⟨hthis, ih (i + blk.length) ?_⟩
    intro pr hpr
    exact hq pr (by rw [blockIntervals]; exact List.mem_cons_of_mem _ hpr)

/-- Prepending blocks shifts the backward lookup facts by their total
length. -/
lemma blocksLookBwd_append (qIv : List (String × ℕ × ℕ)) :
    ∀ (xs ys : List (String × List PhasedVariant)) (i : ℤ),
      BlocksLookBwd qIv i xs →
      BlocksLookBwd qIv (i - (xs.map (fun p => ((p.2.length : ℕ) : ℤ))).sum) ys →
      BlocksLookBwd qIv i (xs ++ ys) := by
  intro xs
  induction xs with
  | nil =>
    intro ys i _ hys
    simpa using hys
  | cons p xt ih =>
    obtain ⟨ps, blk⟩ := p
    intro ys i hx hys
    rw [List.cons_append, BlocksLookBwd]
    rw [BlocksLookBwd] at hx
    obtain ⟨h1, h2⟩ := hx
    refine ⟨h1, ih ys (i - blk.length) h2 ?_⟩
    have hsum : i - ((((ps, blk) :: xt).map (fun p => ((p.2.length : ℕ) : ℤ))).sum) =
        i - (blk.length : ℤ) - ((xt.map (fun p => ((p.2.length : ℕ) : ℤ))).sum) := by
      simp only [List.map_cons, List.sum_cons]
      ring
    rw [hsum] at hys
    exact hys

/-- The backward lookup facts over the reversed blocks follow from the
forward ones. -/
lemma blocksLookBwd_of_fwd (qIv : List (String × ℕ × ℕ)) :
    ∀ (blocks : List (String × List PhasedVariant)) (i : ℕ),
      (∀ p ∈ blocks, p.2 ≠ []) →
      BlocksLookFwd qIv i blocks →
      BlocksLookBwd qIv
        ((i : ℤ) + (blocks.map (fun p => ((p.2.length : ℕ) : ℤ))).sum - 1)
        ((blocks.map (fun p => (p.1, p.2.reverse))).reverse) := by
  intro blocks
  induction blocks with
  | nil =>
    intro i _ _
    simp only [List.map_nil, List.reverse_nil]
    rw [BlocksLookBwd]
    trivial
  | cons p bs ih =>
    obtain ⟨ps, blk⟩ := p
    intro i hne hlook
    rw [BlocksLookFwd] at hlook
    obtain ⟨h1, h2⟩ := hlook
    have hlen1 : 1 ≤ blk.length := List.length_pos.mpr (hne (ps, blk) (by simp))
    simp only [List.map_cons, List.reverse_cons]
    apply blocksLookBwd_append
    · have hih := ih (i + blk.length) (fun p hp => hne p (List.mem_cons_of_mem _ hp)) h2
      have hidx : ((i + blk.length : ℕ) : ℤ) +
          (bs.map (fun p => ((p.2.length : ℕ) : ℤ))).sum - 1 =
          (i : ℤ) + ((((ps, blk) :: bs).map (fun p => ((p.2.length : ℕ) : ℤ))).sum) - 1 := by
        simp only [List.map_cons, List.sum_cons]
        push_cast
        ring
      rw [hidx] at hih
      exact hih
    · have hS : ((((bs.map (fun p => (p.1, p.2.reverse))).reverse).map
          (fun p => ((p.2.length : ℕ) : ℤ))).sum) =
          ((bs.map (fun p => ((p.2.length : ℕ) : ℤ))).sum) := by
        rw [List.map_reverse, List.sum_reverse, List.map_map]
        congr 1
        apply List.map_congr_left
        intro p _
        simp [Function.comp]
      rw [hS]
      simp only [List.map_cons, List.sum_cons]
      rw [BlocksLookBwd]
      constructor
      · refine ⟨i, i + blk.length - 1, h1, by omega, ?_⟩
        simp only [List.length_reverse]
        omega
      · rw [BlocksLookBwd]
        trivial

/-- The flattened reversed-block decomposition is the reverse of the
flattened list. -/
lemma flatten_reverse_blocks :
    ∀ (blocks : List (String × List PhasedVariant)),
      (((blocks.map (fun p => (p.1, p.2.reverse))).reverse).map Prod.snd).flatten =
        ((blocks.map Prod.snd).flatten).reverse := by
  intro blocks
  induction blocks with
  | nil => rfl
  | cons p bs ih =>
    obtain ⟨ps, blk⟩ := p
    simp only [List.map_cons, List.reverse_cons, List.flatten_cons,
      List.map_append, List.flatten_append, List.reverse_append, ih]
    simp

/-- The flattened block decomposition's length is the sum of the block
lengths. -/
lemma flatten_length_blocks :
    ∀ (blocks : List (String × List PhasedVariant)),
      ((((blocks.map Prod.snd).flatten).length : ℕ) : ℤ) =
        (blocks.map (fun p => ((p.2.length : ℕ) : ℤ))).sum := by
  intro blocks
  induction blocks with
  | nil => simp
  | cons p bs ih =>
    simp only [List.map_cons, List.flatten_cons, List.length_append,
      Nat.cast_add, List.sum_cons, ih]

/-- Forward sweep through the remainder of one phase-set block on identical
lists: the active pair's two phased sums stay equal, unphased-plus-out-of-
scope equals the partition sum, and total equals partition total; at the
block's end the pair is garbage-collected, handing the next block an empty
active list whose out-of-scope accumulator equals the partition sum. -/
lemma pciLoop_block_fwd (d : ℚ) (qIv : List (String × ℕ × ℕ)) (ps : String)
    (s e : ℕ) (hd : 0 ≤ d) (hlook : qIv.lookup ps = some (s, e)) :
    ∀ (rest restAll : List PhasedVariant) (i : ℤ) (u T P O : ℚ),
      rest ≠ [] →
      (∀ v ∈ rest, v.phaseSet = ps) →
      (∀ v ∈ rest, pvAllele1 v ≠ pvAllele2 v) →
      i + rest.length = (e : ℤ) + 1 →
      (s : ℤ) ≤ i →
      u + O = P → 0 ≤ u → 0 ≤ O →
      ∃ T2 P2,
        pciLoop d qIv qIv true (rest ++ restAll) (rest ++ restAll) i i
            ⟨[⟨ps, ps, u, u, 0⟩], T, P, T, O⟩ =
          pciLoop d qIv qIv true restAll restAll ((e : ℤ) + 1) ((e : ℤ) + 1)
            ⟨[], T2, P2, T2, P2⟩ ∧
        0 ≤ P2 ∧ T ≤ T2 ∧ T + P ≤ T2 := by
  intro rest
  induction rest with
  | nil => intro restAll i u T P O hne; exact absurd rfl hne
  | cons w rrest ih =>
    intro restAll i u T P O _ hps hhet hn hs huop hu ho
    have hP : 0 ≤ P := by linarith
    simp only [List.length_cons] at hn
    rw [List.cons_append,
      pciLoop_cons_self_fwd d _ _ w (rrest ++ restAll) (rrest ++ restAll) i i _
        (hhet w (by simp)),
      hps w (by simp), pciMatchedUpdate_pair]
    have hTrw : T + u + O = T + P := by linarith
    rw [hTrw]
    by_cases hrr : rrest = []
    · subst hrr
      simp only [List.length_nil] at hn
      rw [pciGc_pair_remove qIv ps s e (i + 1) _ _ _ _ _ _ _ hlook
        (Or.inl (by omega))]
      have hOrw : O * d + (u + 1) * d = (P + 1) * d := by
        rw [← huop]; ring
      rw [hOrw, List.nil_append, show i + 1 = (e : ℤ) + 1 by omega]
      exact ⟨T + P, (P + 1) * d, rfl, mul_nonneg (by linarith) hd,
        by linarith, le_refl _⟩
    · have hrl : 1 ≤ rrest.length := List.length_pos.mpr hrr
      rw [pciGc_pair_keep qIv ps s e (i + 1) _ _ _ _ _ _ _ hlook
        (by omega) (by omega)]
      obtain ⟨T2, P2, heq, hP2, hT2a, hT2b⟩ := ih restAll (i + 1) ((u + 1) * d)
        (T + P) ((P + 1) * d) (O * d) hrr
        (fun v hv => hps v (List.mem_cons_of_mem _ hv))
        (fun v hv => hhet v (List.mem_cons_of_mem _ hv))
        (by omega) (by omega)
        (by rw [← huop]; ring) (mul_nonneg (by linarith) hd) (mul_nonneg ho hd)
      exact ⟨T2, P2, heq, hP2, by linarith, hT2a⟩

/-- Backward sweep through the remainder of one phase-set block, mirror of
the forward sweep with descending indices: the block exits at the interval's
left end minus one. -/
lemma pciLoop_block_bwd (d : ℚ) (qIv : List (String × ℕ × ℕ)) (ps : String)
    (s e : ℕ) (hd : 0 ≤ d) (hlook : qIv.lookup ps = some (s, e)) :
    ∀ (rest restAll : List PhasedVariant) (i : ℤ) (u T P O : ℚ),
      rest ≠ [] →
      (∀ v ∈ rest, v.phaseSet = ps) →
      (∀ v ∈ rest, pvAllele1 v ≠ pvAllele2 v) →
      i - rest.length = (s : ℤ) - 1 →
      i ≤ (e : ℤ) →
      u + O = P → 0 ≤ u → 0 ≤ O →
      ∃ T2 P2,
        pciLoop d qIv qIv false (rest ++ restAll) (rest ++ restAll) i i
            ⟨[⟨ps, ps, u, u, 0⟩], T, P, T, O⟩ =
          pciLoop d qIv qIv false restAll restAll ((s : ℤ) - 1) ((s : ℤ) - 1)
            ⟨[], T2, P2, T2, P2⟩ ∧
        0 ≤ P2 ∧ T ≤ T2 ∧ T + P ≤ T2 := by
  intro rest
  induction rest with
  | nil => intro restAll i u T P O hne; exact absurd rfl hne
  | cons w rrest ih =>
    intro restAll i u T P O _ hps hhet hn hs huop hu ho
    have hP : 0 ≤ P := by linarith
    simp only [List.length_cons] at hn
    rw [List.cons_append,
      pciLoop_cons_self_bwd d _ _ w (rrest ++ restAll) (rrest ++ restAll) i i _
        (hhet w (by simp)),
      hps w (by simp), pciMatchedUpdate_pair]
    have hTrw : T + u + O = T + P := by linarith
    rw [hTrw]
    by_cases hrr : rrest = []
    · subst hrr
      simp only [List.length_nil] at hn
      rw [pciGc_pair_remove qIv ps s e (i + -1) _ _ _ _ _ _ _ hlook
        (Or.inr (by omega))]
      have hOrw : O * d + (u + 1) * d = (P + 1) * d := by
        rw [← huop]; ring
      rw [hOrw, List.nil_append, show i + -1 = (s : ℤ) - 1 by omega]
      exact ⟨T + P, (P + 1) * d, rfl, mul_nonneg (by linarith) hd,
        by linarith, le_refl _⟩
    · have hrl : 1 ≤ rrest.length := List.length_pos.mpr hrr
      rw [pciGc_pair_keep qIv ps s e (i + -1) _ _ _ _ _ _ _ hlook
        (by omega) (by omega)]
      obtain ⟨T2, P2, heq, hP2, hT2a, hT2b⟩ := ih restAll (i + -1) ((u + 1) * d)
        (T + P) ((P + 1) * d) (O * d) hrr
        (fun v hv => hps v (List.mem_cons_of_mem _ hv))
        (fun v hv => hhet v (List.mem_cons_of_mem _ hv))
        (by omega) (by omega)
        (by rw [← huop]; ring) (mul_nonneg (by linarith) hd) (mul_nonneg ho hd)
      exact ⟨T2, P2, heq, hP2, by linarith, hT2a⟩

/-- Forward sweep over a blockwise list on identical query and truth: total
and partition-total stay equal, never decrease, grow by the incoming
partition sum on a nonempty list, and by at least its decayed successor on a
list with two or more variants. -/
lemma pciLoop_blocks_fwd (d : ℚ) (qIv : List (String × ℕ × ℕ)) (hd : 0 ≤ d) :
    ∀ (blocks : List (String × List PhasedVariant)) (i : ℕ) (T P : ℚ),
      (∀ p ∈ blocks, p.2 ≠ []) →
      (∀ p ∈ blocks, ∀ v ∈ p.2, v.phaseSet = p.1) →
      (∀ p ∈ blocks, ∀ v ∈ p.2, pvAllele1 v ≠ pvAllele2 v) →
      BlocksLookFwd qIv i blocks →
      0 ≤ P →
      (pciLoop d qIv qIv true ((blocks.map Prod.snd).flatten)
          ((blocks.map Prod.snd).flatten) (i : ℤ) (i : ℤ)
          ⟨[], T, P, T, P⟩).totalSum =
        (pciLoop d qIv qIv true ((blocks.map Prod.snd).flatten)
          ((blocks.map Prod.snd).flatten) (i : ℤ) (i : ℤ)
          ⟨[], T, P, T, P⟩).partitionTotalSum ∧
      T ≤ (pciLoop d qIv qIv true ((blocks.map Prod.snd).flatten)
          ((blocks.map Prod.snd).flatten) (i : ℤ) (i : ℤ)
          ⟨[], T, P, T, P⟩).partitionTotalSum ∧
      ((blocks.map Prod.snd).flatten ≠ [] →
        T + P ≤ (pciLoop d qIv qIv true ((blocks.map Prod.snd).flatten)
          ((blocks.map Prod.snd).flatten) (i : ℤ) (i : ℤ)
          ⟨[], T, P, T, P⟩).partitionTotalSum) ∧
      (2 ≤ ((blocks.map Prod.snd).flatten).length →
        T + P + (P + 1) * d ≤ (pciLoop d qIv qIv true
          ((blocks.map Prod.snd).flatten) ((blocks.map Prod.snd).flatten)
          (i : ℤ) (i : ℤ) ⟨[], T, P, T, P⟩).partitionTotalSum) := by
  intro blocks
  induction blocks with
  | nil =>
    intro i T P _ _ _ _ _
    simp only [List.map_nil, List.flatten_nil]
    rw [pciLoop]
    exact ⟨rfl, le_refl T, fun h => absurd rfl h, fun h => absurd h (by simp)⟩
  | cons pr bs ih =>
    obtain ⟨ps, blk⟩ := pr
    intro i T P hne hps hhet hlook hP
    rw [BlocksLookFwd] at hlook
    obtain ⟨hlook0, hlookrest⟩ := hlook
    obtain ⟨w, brest, rfl⟩ : ∃ w brest, blk = w :: brest := by
      have hb : blk ≠ [] := hne (ps, blk) (by simp)
      cases blk with
      | nil => exact absurd rfl hb
      | cons x xs => exact ⟨x, xs, rfl⟩
    have hw : w.phaseSet = ps := hps (ps, w :: brest) (by simp) w (by simp)
    simp only [List.map_cons, List.flatten_cons, List.cons_append]
    rw [pciLoop_cons_self_fwd d _ _ w (brest ++ (bs.map Prod.snd).flatten)
        (brest ++ (bs.map Prod.snd).flatten) (i : ℤ) (i : ℤ) _
        (hhet (ps, w :: brest) (by simp) w (by simp)),
      hw, pciMatchedUpdate_emptysums]
    by_cases hbr : brest = []
    · subst hbr
      simp only [List.length_cons, List.length_nil] at hlook0 hlookrest
      rw [pciGc_pair_remove qIv ps i (i + (0 + 1) - 1) ((i : ℤ) + 1) _ _ _ _ _ _ _
        hlook0 (Or.inl (by omega))]
      have hOrw : P * d + d = (P + 1) * d := by ring
      rw [hOrw, List.nil_append,
        show (i : ℤ) + 1 = ((i + (0 + 1) : ℕ) : ℤ) by push_cast; ring]
      have hmain := ih (i + (0 + 1)) (T + P) ((P + 1) * d)
        (fun p hp => hne p (List.mem_cons_of_mem _ hp))
        (fun p hp => hps p (List.mem_cons_of_mem _ hp))
        (fun p hp => hhet p (List.mem_cons_of_mem _ hp))
        hlookrest (mul_nonneg (by linarith) hd)
      obtain ⟨hm1, hm2, hm3, _⟩ := hmain
      refine ⟨hm1, by linarith, fun _ => hm2, ?_⟩
      intro h2
      simp only [List.length_cons, List.nil_append] at h2
      have hfne : (bs.map Prod.snd).flatten ≠ [] := by
        intro h0
        rw [h0] at h2
        simp at h2
      exact hm3 hfne
    · have hbrl : 1 ≤ brest.length := List.length_pos.mpr hbr
      rw [pciGc_pair_keep qIv ps i (i + (w :: brest).length - 1) ((i : ℤ) + 1)
        _ _ _ _ _ _ _ hlook0 (by omega)
        (by simp only [List.length_cons]; omega)]
      obtain ⟨T2, P2, heq, hP2, hT2a, hT2b⟩ := pciLoop_block_fwd d qIv ps i
        (i + (w :: brest).length - 1) hd hlook0 brest ((bs.map Prod.snd).flatten)
        ((i : ℤ) + 1) d (T + P) ((P + 1) * d) (P * d) hbr
        (fun v hv => hps (ps, w :: brest) (by simp) v (List.mem_cons_of_mem _ hv))
        (fun v hv => hhet (ps, w :: brest) (by simp) v (List.mem_cons_of_mem _ hv))
        (by simp only [List.length_cons]; omega) (by omega)
        (by ring) hd (mul_nonneg hP hd)
      rw [heq,
        show ((i + (w :: brest).length - 1 : ℕ) : ℤ) + 1 =
          ((i + (w :: brest).length : ℕ) : ℤ) by
            simp only [List.length_cons]; omega]
      have hmain := ih (i + (w :: brest).length) T2 P2
        (fun p hp => hne p (List.mem_cons_of_mem _ hp))
        (fun p hp => hps p (List.mem_cons_of_mem _ hp))
        (fun p hp => hhet p (List.mem_cons_of_mem _ hp))
        hlookrest hP2
      obtain ⟨hm1, hm2, _, _⟩ := hmain
      exact ⟨hm1, by linarith, fun _ => by linarith, fun _ => by linarith⟩

/-- Backward sweep over the reversed blockwise list, mirror of the forward
one. -/
lemma pciLoop_blocks_bwd (d : ℚ) (qIv : List (String × ℕ × ℕ)) (hd : 0 ≤ d) :
    ∀ (blocks : List (String × List PhasedVariant)) (i : ℤ) (T P : ℚ),
      (∀ p ∈ blocks, p.2 ≠ []) →
      (∀ p ∈ blocks, ∀ v ∈ p.2, v.phaseSet = p.1) →
      (∀ p ∈ blocks, ∀ v ∈ p.2, pvAllele1 v ≠ pvAllele2 v) →
      BlocksLookBwd qIv i blocks →
      0 ≤ P →
      (pciLoop d qIv qIv false ((blocks.map Prod.snd).flatten)
          ((blocks.map Prod.snd).flatten) i i ⟨[], T, P, T, P⟩).totalSum =
        (pciLoop d qIv qIv false ((blocks.map Prod.snd).flatten)
          ((blocks.map Prod.snd).flatten) i i ⟨[], T, P, T, P⟩).partitionTotalSum ∧
      T ≤ (pciLoop d qIv qIv false ((blocks.map Prod.snd).flatten)
          ((blocks.map Prod.snd).flatten) i i ⟨[], T, P, T, P⟩).partitionTotalSum ∧
      ((blocks.map Prod.snd).flatten ≠ [] →
        T + P ≤ (pciLoop d qIv qIv false ((blocks.map Prod.snd).flatten)
          ((blocks.map Prod.snd).flatten) i i ⟨[], T, P, T, P⟩).partitionTotalSum) ∧
      (2 ≤ ((blocks.map Prod.snd).flatten).length →
        T + P + (P + 1) * d ≤ (pciLoop d qIv qIv false
          ((blocks.map Prod.snd).flatten) ((blocks.map Prod.snd).flatten)
          i i ⟨[], T, P, T, P⟩).partitionTotalSum) := by
  intro blocks
  induction blocks with
  | nil =>
    intro i T P _ _ _ _ _
    simp only [List.map_nil, List.flatten_nil]
    rw [pciLoop]
    exact ⟨rfl, le_refl T, fun h => absurd rfl h, fun h => absurd h (by simp)⟩
  | cons pr bs ih =>
    obtain ⟨ps, blk⟩ := pr
    intro i T P hne hps hhet hlook hP
    rw [BlocksLookBwd] at hlook
    obtain ⟨⟨s, e, hlk, he, hsx⟩, hlookrest⟩ := hlook
    obtain ⟨w, brest, rfl⟩ : ∃ w brest, blk = w :: brest := by
      have hb : blk ≠ [] := hne (ps, blk) (by simp)
      cases blk with
      | nil => exact absurd rfl hb
      | cons x xs => exact ⟨x, xs, rfl⟩
    have hw : w.phaseSet = ps := hps (ps, w :: brest) (by simp) w (by simp)
    simp only [List.length_cons] at hsx hlookrest
    simp only [List.map_cons, List.flatten_cons, List.cons_append]
    rw [pciLoop_cons_self_bwd d _ _ w (brest ++ (bs.map Prod.snd).flatten)
        (brest ++ (bs.map Prod.snd).flatten) i i _
        (hhet (ps, w :: brest) (by simp) w (by simp)),
      hw, pciMatchedUpdate_emptysums]
    by_cases hbr : brest = []
    · subst hbr
      simp only [List.length_nil] at hsx hlookrest
      rw [pciGc_pair_remove qIv ps s e (i + -1) _ _ _ _ _ _ _ hlk
        (Or.inr (by omega))]
      have hOrw : P * d + d = (P + 1) * d := by ring
      rw [hOrw, List.nil_append, show i + -1 = i - ((0 + 1 : ℕ) : ℤ) by push_cast; ring]
      have hmain := ih (i - ((0 + 1 : ℕ) : ℤ)) (T + P) ((P + 1) * d)
        (fun p hp => hne p (List.mem_cons_of_mem _ hp))
        (fun p hp => hps p (List.mem_cons_of_mem _ hp))
        (fun p hp => hhet p (List.mem_cons_of_mem _ hp))
        (by push_cast at hlookrest ⊢; exact hlookrest) (mul_nonneg (by linarith) hd)
      obtain ⟨hm1, hm2, hm3, _⟩ := hmain
      refine ⟨hm1, by linarith, fun _ => hm2, ?_⟩
      intro h2
      simp only [List.length_cons, List.nil_append] at h2
      have hfne : (bs.map Prod.snd).flatten ≠ [] := by
        intro h0
        rw [h0] at h2
        simp at h2
      exact hm3 hfne
    · have hbrl : 1 ≤ brest.length := List.length_pos.mpr hbr
      rw [pciGc_pair_keep qIv ps s e (i + -1) _ _ _ _ _ _ _ hlk
        (by omega) (by omega)]
      obtain ⟨T2, P2, heq, hP2, hT2a, hT2b⟩ := pciLoop_block_bwd d qIv ps s e hd
        hlk brest ((bs.map Prod.snd).flatten) (i + -1) d (T + P) ((P + 1) * d)
        (P * d) hbr
        (fun v hv => hps (ps, w :: brest) (by simp) v (List.mem_cons_of_mem _ hv))
        (fun v hv => hhet (ps, w :: brest) (by simp) v (List.mem_cons_of_mem _ hv))
        (by omega) (by omega)
        (by ring) hd (mul_nonneg hP hd)
      rw [heq, show (s : ℤ) - 1 = i - ((brest.length + 1 : ℕ) : ℤ) by push_cast; omega]
      have hmain := ih (i - ((brest.length + 1 : ℕ) : ℤ)) T2 P2
        (fun p hp => hne p (List.mem_cons_of_mem _ hp))
        (fun p hp => hps p (List.mem_cons_of_mem _ hp))
        (fun p hp => hhet p (List.mem_cons_of_mem _ hp))
        (by push_cast at hlookrest ⊢; exact hlookrest) hP2
      obtain ⟨hm1, hm2, _, _⟩ := hmain
      exact ⟨hm1, by linarith, fun _ => by linarith, fun _ => by linarith⟩

/-- The forward sweep of phasingCorrectnessInternal, unfolded. -/
lemma phasingCorrectnessInternal_fwd (qs ts : List PhasedVariant) (d : ℚ)
    (qIv tIv : List (String × ℕ × ℕ)) :
    phasingCorrectnessInternal qs ts d qIv tIv true =
      ((pciLoop d qIv tIv true qs ts 0 0 pciInit).totalSum,
       (pciLoop d qIv tIv true qs ts 0 0 pciInit).partitionTotalSum) := rfl

/-- The backward sweep of phasingCorrectnessInternal, unfolded. -/
lemma phasingCorrectnessInternal_bwd (qs ts : List PhasedVariant) (d : ℚ)
    (qIv tIv : List (String × ℕ × ℕ)) :
    phasingCorrectnessInternal qs ts d qIv tIv false =
      ((pciLoop d qIv tIv false qs.reverse ts.reverse
          ((qs.length : ℤ) - 1) ((ts.length : ℤ) - 1) pciInit).totalSum,
       (pciLoop d qIv tIv false qs.reverse ts.reverse
          ((qs.length : ℤ) - 1) ((ts.length : ℤ) - 1) pciInit).partitionTotalSum) := rfl

/-- phasingCorrectness with in-range positive decay and successful interval
tables is the combined forward/backward ratio. -/
lemma phasingCorrectness_ratio (qs ts : List PhasedVariant) (d : ℚ)
    (qIv tIv : List (String × ℕ × ℕ))
    (hr : ¬(d < 0 ∨ 1 < d)) (hz : ¬d = 0)
    (hq : phaseSetIntervals qs = .ok qIv) (ht : phaseSetIntervals ts = .ok tIv) :
    phasingCorrectness qs ts d = .ok
      (((phasingCorrectnessInternal qs ts d qIv tIv true).1 +
        (phasingCorrectnessInternal qs ts d qIv tIv false).1) /
       ((phasingCorrectnessInternal qs ts d qIv tIv true).2 +
        (phasingCorrectnessInternal qs ts d qIv tIv false).2)) := by
  rw [phasingCorrectness, if_neg hr, if_neg hz, hq, ht]

/-- Switch-correctness step on a shared heterozygous variant with no previous
pair: it counts as phased but no adjacent pair is scored yet. -/
lemma switchCorrectnessLoop_cons_self_none (v : PhasedVariant)
    (qs ts : List PhasedVariant) (nP nC : ℕ)
    (hhet : pvAllele1 v ≠ pvAllele2 v) :
    switchCorrectnessLoop (v :: qs) (v :: ts) none nP nC =
      switchCorrectnessLoop qs ts (some (v.phaseSet, v.phaseSet, true))
        (nP + 1) nC := by
  have h12 : (pvAllele1 v == pvAllele2 v) = false := by simpa using hhet
  have h21 : (pvAllele2 v == pvAllele1 v) = false := by simpa using hhet.symm
  rw [switchCorrectnessLoop]
  simp [h12, h21]

/-- Switch-correctness sweep on identical lists with a previous in-phase
pair: every variant counts as phased and every adjacent pair as correct (the
same phase-set pair matches in polarity; a different pair is counted correct
unconditionally). -/
lemma switchCorrectnessLoop_self :
    ∀ (l : List PhasedVariant) (pq pt : String) (nP nC : ℕ),
      (∀ v ∈ l, pvAllele1 v ≠ pvAllele2 v) →
      switchCorrectnessLoop l l (some (pq, pt, true)) nP nC =
        (nP + l.length, nC + l.length) := by
  intro l
  induction l with
  | nil => intro pq pt nP nC _; rw [switchCorrectnessLoop]; simp
  | cons v rest ih =>
    intro pq pt nP nC hhet
    have h12 : (pvAllele1 v == pvAllele2 v) = false := by
      simpa using hhet v (by simp)
    have h21 : (pvAllele2 v == pvAllele1 v) = false := by
      simpa using (hhet v (by simp)).symm
    rw [switchCorrectnessLoop]
    simp [h12, h21]
    rw [ih v.phaseSet v.phaseSet (nP + 1) (nC + 1)
      (fun w hw => hhet w (List.mem_cons_of_mem _ hw))]
    simp only [Prod.mk.injEq]
    omega

/-- switchCorrectness on identical lists of at least two matchable
heterozygous variants is exactly 1 regardless of the phase sets. -/
lemma switchCorrectness_self (l : List PhasedVariant)
    (hhet : ∀ v ∈ l, pvAllele1 v ≠ pvAllele2 v)
    (hlen : 2 ≤ l.length) :
    switchCorrectness l l = 1 := by
  obtain ⟨v, rest, rfl⟩ : ∃ v rest, l = v :: rest := by
    cases l with
    | nil => simp at hlen
    | cons a b => exact ⟨a, b, rfl⟩
  have hdef : switchCorrectness (v :: rest) (v :: rest) =
      ((switchCorrectnessLoop (v :: rest) (v :: rest) none 0 0).2 : ℚ) /
        (((switchCorrectnessLoop (v :: rest) (v :: rest) none 0 0).1 : ℚ) - 1) := rfl
  rw [hdef, switchCorrectnessLoop_cons_self_none v rest rest 0 0 (hhet v (by simp)),
    switchCorrectnessLoop_self rest v.phaseSet v.phaseSet (0 + 1) 0
      (fun w hw => hhet w (List.mem_cons_of_mem _ hw))]
  have hrl : 1 ≤ rest.length := by
    simp only [List.length_cons] at hlen
    omega
  have hq : ((rest.length : ℚ)) ≠ 0 := Nat.cast_ne_zero.mpr (by omega)
  push_cast
  rw [show (1 : ℚ) + rest.length - 1 = rest.length by ring, zero_add,
    div_self hq]

/-- C4: FALSE as stated.  A single shared heterozygous variant is a non-empty
shared variant set, but both sweep numerators and denominators are 0, so
phasingCorrectness returns 0/0 (modelled as 0 over the rationals, NaN in C),
not 1, for decay 1/2. -/
theorem C4_counterexample :
    phasingCorrectness [⟨10, ["A", "C"], 0, 1, "ps1"⟩]
      [⟨10, ["A", "C"], 0, 1, "ps1"⟩] (1 / 2) ≠ .ok 1 := by
  have hAC : ¬ ("A" : String) = "C" := by decide
  have hCA : ¬ ("C" : String) = "A" := by decide
  norm_num [phasingCorrectness, phaseSetIntervals, phaseSetIntervalsLoop,
    phasingCorrectnessInternal, pciLoop, pciInit, pciMatchedUpdate,
    pciUpdateSums, pciDecaySums, pciGc, pciSumOut, pvAllele1, pvAllele2,
    List.lookup, hAC, hCA]

/-- C4 (amended): if query and truth are the same position-sorted list of at
least two heterozygous matchable variants in which every phase set occupies
one contiguous run (the list decomposes into nonempty single-phase-set
blocks with pairwise distinct phase sets), then phasingCorrectness returns
exactly 1 for every decay in [0, 1].  With a single shared variant the
result is the indeterminate 0/0 rather than 1. -/
theorem C4_amended (blocks : List (String × List PhasedVariant)) (d : ℚ)
    (hne : ∀ p ∈ blocks, p.2 ≠ [])
    (hps : ∀ p ∈ blocks, ∀ v ∈ p.2, v.phaseSet = p.1)
    (hdist : (blocks.map Prod.fst).Pairwise (fun x y => x ≠ y))
    (hhet : ∀ p ∈ blocks, ∀ v ∈ p.2, pvAllele1 v ≠ pvAllele2 v)
    (hch : List.Chain (fun x y => x ≤ y) (-1)
      (((blocks.map Prod.snd).flatten).map PhasedVariant.refPos))
    (hlen : 2 ≤ ((blocks.map Prod.snd).flatten).length)
    (hd0 : 0 ≤ d) (hd1 : d ≤ 1) :
    phasingCorrectness ((blocks.map Prod.snd).flatten)
      ((blocks.map Prod.snd).flatten) d = .ok 1 := by
  have hhetL : ∀ v ∈ (blocks.map Prod.snd).flatten,
      pvAllele1 v ≠ pvAllele2 v := by
    intro v hv
    rw [List.mem_flatten] at hv
    obtain ⟨blkl, hblkl, hvblk⟩ := hv
    obtain ⟨p, hp, rfl⟩ := List.mem_map.mp hblkl
    exact hhet p hp v hvblk
  by_cases hz : d = 0
  · rw [phasingCorrectness, if_neg (by push_neg; exact ⟨hd0, hd1⟩), if_pos hz,
      switchCorrectness_self ((blocks.map Prod.snd).flatten) hhetL hlen]
  · have hqiv : phaseSetIntervals ((blocks.map Prod.snd).flatten) =
        .ok (blockIntervals 0 blocks) := by
      rw [phaseSetIntervals,
        phaseSetIntervalsLoop_blocks blocks 0 (-1) [] hne hps hch
          (fun p _ => rfl) hdist]
      simp
    rw [phasingCorrectness_ratio _ _ d _ _ (by push_neg; exact ⟨hd0, hd1⟩) hz
      hqiv hqiv, phasingCorrectnessInternal_fwd, phasingCorrectnessInternal_bwd,
      show pciInit = (⟨[], 0, 0, 0, 0⟩ : PciState) from rfl]
    have hlookF : BlocksLookFwd (blockIntervals 0 blocks) 0 blocks :=
      blocksLookFwd_of_lookup _ blocks 0 (blockIntervals_lookup_self blocks 0 hdist)
    have hfwd := pciLoop_blocks_fwd d (blockIntervals 0 blocks) hd0 blocks 0 0 0
      hne hps hhet hlookF (le_refl 0)
    simp only [Nat.cast_zero] at hfwd
    have hneR : ∀ p ∈ (blocks.map (fun p => (p.1, p.2.reverse))).reverse,
        p.2 ≠ [] := by
      intro p hp
      rw [List.mem_reverse] at hp
      obtain ⟨q, hq, rfl⟩ := List.mem_map.mp hp
      intro h0
      exact hne q hq (List.reverse_eq_nil_iff.mp h0)
    have hpsR : ∀ p ∈ (blocks.map (fun p => (p.1, p.2.reverse))).reverse,
        ∀ v ∈ p.2, v.phaseSet = p.1 := by
      intro p hp v hv
      rw [List.mem_reverse] at hp
      obtain ⟨q, hq, rfl⟩ := List.mem_map.mp hp
      exact hps q hq v (by simpa using hv)
    have hhetR : ∀ p ∈ (blocks.map (fun p => (p.1, p.2.reverse))).reverse,
        ∀ v ∈ p.2, pvAllele1 v ≠ pvAllele2 v := by
      intro p hp v hv
      rw [List.mem_reverse] at hp
      obtain ⟨q, hq, rfl⟩ := List.mem_map.mp hp
      exact hhet q hq v (by simpa using hv)
    have hlookB := blocksLookBwd_of_fwd _ blocks 0 hne hlookF
    rw [show ((0 : ℕ) : ℤ) +
        (blocks.map (fun p => ((p.2.length : ℕ) : ℤ))).sum - 1 =
        (((blocks.map Prod.snd).flatten).length : ℤ) - 1 by
          rw [flatten_length_blocks]; push_cast; ring] at hlookB
    have hbwd := pciLoop_blocks_bwd d (blockIntervals 0 blocks) hd0
      ((blocks.map (fun p => (p.1, p.2.reverse))).reverse)
      ((((blocks.map Prod.snd).flatten).length : ℤ) - 1) 0 0
      hneR hpsR hhetR hlookB (le_refl 0)
    rw [flatten_reverse_blocks] at hbwd
    have hlenR : 2 ≤ (((blocks.map Prod.snd).flatten).reverse).length := by
      simpa using hlen
    obtain ⟨hf1, _, _, hf4⟩ := hfwd
    obtain ⟨hb1, _, _, hb4⟩ := hbwd
    have hdpos : 0 < d := lt_of_le_of_ne hd0 (Ne.symm hz)
    have hF := hf4 hlen
    have hB := hb4 hlenR
    simp only at hf1 hb1 ⊢
    rw [hf1, hb1, div_self (by linarith)]

/-- Witness for the amended C4 at a concrete input: two sorted heterozygous
variants in two contiguous phase-set blocks with decay 1/2 give
correctness 1. -/
theorem C4_amended_witness :
    phasingCorrectness
      [⟨1, ["A", "C"], 0, 1, "ps1"⟩, ⟨2, ["A", "C"], 0, 1, "ps2"⟩]
      [⟨1, ["A", "C"], 0, 1, "ps1"⟩, ⟨2, ["A", "C"], 0, 1, "ps2"⟩] (1 / 2) =
      .ok 1 :=
  C4_amended
    [("ps1", [⟨1, ["A", "C"], 0, 1, "ps1"⟩]),
     ("ps2", [⟨2, ["A", "C"], 0, 1, "ps2"⟩])] (1 / 2)
    (by decide) (by decide) (by decide)
    (by decide)
    (by norm_num [List.chain_cons])
    (by decide) (by norm_num) (by norm_num)

/-- Rounding is monotone. -/
lemma round_mono_real {x y : ℝ} (h : x ≤ y) : round x ≤ round y := by
  rw [round_eq, round_eq]
  exact Int.floor_mono (by linarith)

/-- The logsumexp normalizer dominates every summand. -/
lemma le_logSumExpList (xs : List ℝ) (x : ℝ) (hx : x ∈ xs) :
    x ≤ logSumExpList xs := by
  have hsum : Real.exp x ≤ (xs.map Real.exp).sum :=
    List.single_le_sum (fun y hy => by
      obtain ⟨z, _, rfl⟩ := List.mem_map.mp hy
      exact (Real.exp_pos z).le) _ (List.mem_map_of_mem Real.exp hx)
  calc x = Real.log (Real.exp x) := (Real.log_exp x).symm
    _ ≤ logSumExpList xs := Real.log_le_log (Real.exp_pos x) hsum

/-- C5: FALSE as stated.  The minimum byte after quantization is
round(scalar * (total_log_prob - max support)), which is 0 only when the
best-supported allele sufficiently dominates: two equally supported alleles
(supports 0, 0) give total_log_prob = log 2 and, at the upstream scalar 30,
both bytes equal round(30 * log 2) = 21, so no byte is 0. -/
theorem C5_counterexample : (0 : ℤ) ∉ profileBytes 30 [(0 : ℝ), 0] := by
  have hT : logSumExpList [(0 : ℝ), 0] = Real.log 2 := by
    norm_num [logSumExpList]
  have h21 : round ((30 : ℝ) * Real.log 2) = 21 := by
    have h1 := Real.log_two_gt_d9
    have h2 := Real.log_two_lt_d9
    rw [round_eq, Int.floor_eq_iff]
    constructor
    · push_cast
      linarith
    · push_cast
      linarith
  simp [profileBytes, quantizeProfileProb, hT, h21]

/-- C5 (amended): for every scalar value of PROFILE_PROB_SCALAR and every
support vector, all quantized profile bytes are nonnegative and the byte of
an allele with maximal read support is a minimum of the strip; that minimum
is round(scalar * (total_log_prob - max support)), not 0 in general. -/
theorem C5_amended (scalar : ℝ) (xs : List ℝ) (x : ℝ)
    (hS : 0 ≤ scalar) (hx : x ∈ xs) (hmax : ∀ y ∈ xs, y ≤ x) :
    quantizeProfileProb scalar (logSumExpList xs) x ∈ profileBytes scalar xs ∧
      ∀ b ∈ profileBytes scalar xs,
        quantizeProfileProb scalar (logSumExpList xs) x ≤ b ∧ 0 ≤ b := by
  refine ⟨List.mem_map_of_mem _ hx, ?_⟩
  intro b hb
  obtain ⟨y, hy, rfl⟩ := List.mem_map.mp hb
  have hxy : y ≤ x := hmax y hy
  have hTy : y ≤ logSumExpList xs := le_logSumExpList xs y hy
  have hr : round (scalar * (logSumExpList xs - x)) ≤
      round (scalar * (logSumExpList xs - y)) :=
    round_mono_real (mul_le_mul_of_nonneg_left (by linarith) hS)
  have h0 : 0 ≤ round (scalar * (logSumExpList xs - y)) := by
    rw [round_eq]
    exact Int.floor_nonneg.mpr (by nlinarith)
  constructor
  · unfold quantizeProfileProb
    split_ifs <;> omega
  · unfold quantizeProfileProb
    split_ifs <;> omega

/-- Witness for the amended C5 at a concrete input: two equally supported
alleles at scalar 30; the first allele attains the strip's minimum and all
bytes are nonnegative. -/
theorem C5_amended_witness :
    quantizeProfileProb 30 (logSumExpList [(0 : ℝ), 0]) 0 ∈
        profileBytes 30 [(0 : ℝ), 0] ∧
      ∀ b ∈ profileBytes 30 [(0 : ℝ), 0],
        quantizeProfileProb 30 (logSumExpList [(0 : ℝ), 0]) 0 ≤ b ∧ 0 ≤ b :=
  C5_amended 30 [(0 : ℝ), 0] 0 (by norm_num) (by simp) (by simp)

end Margin
